import Mathlib

/-!
Verification of the jsonquery node/tree library (src/node.go) against its
natural-language specification.

The Go code is shallowly embedded: the pointer-linked `Node` tree becomes a
rose tree (`GoNode`), Go's dynamic `interface{}` values become the inductive
`GoVal`, Go maps are modelled as association lists (the parser only ever
builds objects with distinct keys), and a function result of
`(interface{}, error)` together with the possibility of a runtime panic
becomes the three-way `Out` type.  Nodes are addressed by paths (lists of
child indices) where Go code navigates by pointer.
-/

namespace JsonQuery

/-- Mirror of `NodeType` in src/node.go (DocumentNode, ElementNode, TextNode). -/
inductive GoNodeType where
  | document
  | element
  | text
deriving DecidableEq

/-- Mirror of the `contentType` string constants in src/node.go.
`emptyT` is Go's zero value `""` (a freshly constructed node's contentType). -/
inductive CType where
  | emptyT
  | interfaceT
  | arrayT
  | objectT
  | stringT
  | boolT
  | nullT
  | intT
  | int8T
  | int16T
  | int32T
  | int64T
  | uintT
  | uint8T
  | uint16T
  | uint32T
  | uint64T
  | float32T
  | float64T
deriving DecidableEq

/-- The Go integer kinds distinguished by `parseValue` / the `types` map. -/
inductive IntKind where
  | i | i8 | i16 | i32 | i64
  | u | u8 | u16 | u32 | u64
deriving DecidableEq

/-- The `contentType` tag corresponding to an integer kind (the `types` map /
the `case intN:` arms of `parseValue` in src/node.go). -/
def ctypeOfInt : IntKind → CType
  | .i => .intT
  | .i8 => .int8T
  | .i16 => .int16T
  | .i32 => .int32T
  | .i64 => .int64T
  | .u => .uintT
  | .u8 => .uint8T
  | .u16 => .uint16T
  | .u32 => .uint32T
  | .u64 => .uint64T

/-- A Go dynamic (`interface{}`) value as handled by this library: the JSON
decoder produces nil / bool / float64 / string / slices / string-keyed maps,
and `ParseFromMaps` additionally feeds in Go's fixed-width integer and
float32 scalars.  Go maps are modelled as association lists; the decoder
never produces duplicate keys.  `vnull` is the nil interface.  Floats are
modelled as exact rationals (the claims under verification restrict
themselves to values that double precision represents exactly, so no
rounding behaviour needs to be modelled). -/
inductive GoVal where
  | vnull
  | vbool (b : Bool)
  | vstr (s : String)
  | vint (k : IntKind) (v : Int)
  | vf32 (q : ℚ)
  | vf64 (q : ℚ)
  | varr (xs : List GoVal)
  | vobj (fs : List (String × GoVal))

/-- Go's `x == nil` test on an interface value. -/
def GoVal.isNil : GoVal → Bool
  | .vnull => true
  | _ => false

/-- Mirror of `Node` in src/node.go.  The `Parent`/`PrevSibling`/`NextSibling`
pointers are represented implicitly by the tree structure (children are kept
in sibling order); `FirstChild`/`LastChild` are the ends of `children`. -/
inductive GoNode where
  | mk (type : GoNodeType) (data : String) (level : Nat) (ctype : CType)
      (idata : GoVal) (skipped : Bool) (children : List GoNode)

def GoNode.type : GoNode → GoNodeType
  | .mk t _ _ _ _ _ _ => t

def GoNode.data : GoNode → String
  | .mk _ d _ _ _ _ _ => d

def GoNode.level : GoNode → Nat
  | .mk _ _ l _ _ _ _ => l

def GoNode.ctype : GoNode → CType
  | .mk _ _ _ ct _ _ _ => ct

def GoNode.idata : GoNode → GoVal
  | .mk _ _ _ _ id _ _ => id

def GoNode.skipped : GoNode → Bool
  | .mk _ _ _ _ _ sk _ => sk

/-- Mirror of `ChildNodes` in src/node.go (the walk over the sibling list). -/
def GoNode.children : GoNode → List GoNode
  | .mk _ _ _ _ _ _ cs => cs

def GoNode.withSkipped : GoNode → Bool → GoNode
  | .mk t d l ct id _ cs, b => .mk t d l ct id b cs

def GoNode.withChildren : GoNode → List GoNode → GoNode
  | .mk t d l ct id sk _, cs => .mk t d l ct id sk cs

/-- Mirror of `SetSkipped` in src/node.go: it only writes the `skipped`
field.  (Addressing of the target node by path is part of the embedding.) -/
def GoNode.setSkipped (n : GoNode) (b : Bool) : GoNode := n.withSkipped b

mutual

/-- Mirror of `InnerText` in src/node.go: depth-first concatenation of the
`Data` of every `TextNode` reached; a `TextNode`'s own children are not
visited. -/
def innerText : GoNode → String
  | .mk t d _ _ _ _ cs => if t = .text then d else innerTextList cs

def innerTextList : List GoNode → String
  | [] => ""
  | c :: cs => innerText c ++ innerTextList cs

end

mutual

/-- Mirror of `InnerData` in src/node.go.  For `array`/`object` tags it
rebuilds a slice / map from the non-skipped children (the map is modelled
as an association list in child order); otherwise it returns the first
child's `idata` when children exist, else the node's own `idata`. -/
def innerData : GoNode → GoVal
  | .mk _ _ _ ct id _ cs =>
    match ct with
    | .arrayT => .varr (innerDataArr cs)
    | .objectT => .vobj (innerDataObj cs)
    | _ =>
      match cs with
      | [] => id
      | c :: _ => c.idata

def innerDataArr : List GoNode → List GoVal
  | [] => []
  | c :: cs => if c.skipped then innerDataArr cs else innerData c :: innerDataArr cs

def innerDataObj : List GoNode → List (String × GoVal)
  | [] => []
  | c :: cs =>
    if c.skipped then innerDataObj cs else (c.data, innerData c) :: innerDataObj cs

end

/-- Mirror of `strconv.ParseBool` from the Go standard library (used by
`JSON` on a `bool`-tagged node): the exact set of accepted literals. -/
def goParseBool (s : String) : Option Bool :=
  if s = "1" ∨ s = "t" ∨ s = "T" ∨ s = "TRUE" ∨ s = "true" ∨ s = "True" then some true
  else if s = "0" ∨ s = "f" ∨ s = "F" ∨ s = "FALSE" ∨ s = "false" ∨ s = "False" then
    some false
  else none

/-- The literals accepted by `strconv.ParseBool`. -/
def parseBoolAccepted : List String :=
  ["1", "t", "T", "TRUE", "true", "True", "0", "f", "F", "FALSE", "false", "False"]

/-- The errors returned by this library: the boolean-parse error surfaced by
`JSON`, and the two shape errors of `toMap` / `Maps`. -/
inductive GoErr where
  | boolParse (s : String)
  | notObject (ct : CType)
  | notArray (ct : CType)
deriving DecidableEq

/-- Whether an error is one of the two shape-mismatch errors
(`"node is not object - %v"` / `"cannot convert Node to []map[...] - %v"`). -/
def GoErr.isShape : GoErr → Bool
  | .boolParse _ => false
  | .notObject _ => true
  | .notArray _ => true

/-- Outcome of a Go call returning `(α, error)` that may additionally panic
at runtime (nil-pointer dereference or failed type assertion): `ok` and
`err` are the two components of the Go return value, `crash` is a panic. -/
inductive Out (α : Type) where
  | ok (v : α)
  | err (e : GoErr)
  | crash

def Out.isOk {α : Type} : Out α → Bool
  | .ok _ => true
  | _ => false

mutual

/-- Mirror of `JSON` in src/node.go.  The early `n.InnerData() == nil` test
returns `nil, nil`; composite tags loop over children (skipping `skipped`
children only when the `skipped` flag argument is set); the numeric tags
re-assert the exact dynamic type of `InnerData()` (a failed assertion is a
panic, `crash`); `bool` re-parses `InnerText()` with `strconv.ParseBool`. -/
def json (flag : Bool) : GoNode → Out GoVal
  | n@(.mk _ _ _ ct _ _ cs) =>
    if (innerData n).isNil then .ok .vnull
    else
      match ct with
      | .arrayT =>
        match jsonArr flag cs with
        | .ok vs => .ok (.varr vs)
        | .err e => .err e
        | .crash => .crash
      | .objectT =>
        match jsonObj flag cs with
        | .ok fs => .ok (.vobj fs)
        | .err e => .err e
        | .crash => .crash
      | .stringT => .ok (innerData n)
      | .intT =>
        match innerData n with
        | .vint .i v => .ok (.vint .i v)
        | _ => .crash
      | .int8T =>
        match innerData n with
        | .vint .i8 v => .ok (.vint .i8 v)
        | _ => .crash
      | .int16T =>
        match innerData n with
        | .vint .i16 v => .ok (.vint .i16 v)
        | _ => .crash
      | .int32T =>
        match innerData n with
        | .vint .i32 v => .ok (.vint .i32 v)
        | _ => .crash
      | .int64T =>
        match innerData n with
        | .vint .i64 v => .ok (.vint .i64 v)
        | _ => .crash
      | .uintT =>
        match innerData n with
        | .vint .u v => .ok (.vint .u v)
        | _ => .crash
      | .uint8T =>
        match innerData n with
        | .vint .u8 v => .ok (.vint .u8 v)
        | _ => .crash
      | .uint16T =>
        match innerData n with
        | .vint .u16 v => .ok (.vint .u16 v)
        | _ => .crash
      | .uint32T =>
        match innerData n with
        | .vint .u32 v => .ok (.vint .u32 v)
        | _ => .crash
      | .uint64T =>
        match innerData n with
        | .vint .u64 v => .ok (.vint .u64 v)
        | _ => .crash
      | .float32T =>
        match innerData n with
        | .vf32 q => .ok (.vf32 q)
        | _ => .crash
      | .float64T =>
        match innerData n with
        | .vf64 q => .ok (.vf64 q)
        | _ => .crash
      | .boolT =>
        match goParseBool (innerText n) with
        | some b => .ok (.vbool b)
        | none => .err (.boolParse (innerText n))
      | .nullT => .ok .vnull
      | _ => .ok (innerData n)

def jsonArr (flag : Bool) : List GoNode → Out (List GoVal)
  | [] => .ok []
  | c :: cs =>
    if flag && c.skipped then jsonArr flag cs
    else
      match json flag c with
      | .err e => .err e
      | .crash => .crash
      | .ok v =>
        match jsonArr flag cs with
        | .ok vs => .ok (v :: vs)
        | .err e => .err e
        | .crash => .crash

def jsonObj (flag : Bool) : List GoNode → Out (List (String × GoVal))
  | [] => .ok []
  | c :: cs =>
    if flag && c.skipped then jsonObj flag cs
    else
      match json flag c with
      | .err e => .err e
      | .crash => .crash
      | .ok v =>
        match jsonObj flag cs with
        | .ok fs => .ok ((c.data, v) :: fs)
        | .err e => .err e
        | .crash => .crash

end

/-- Mirror of `toMap` in src/node.go: reject non-`object` tags, then convert
via `JSON` and assert the result is a map (a failed assertion is a panic). -/
def toMap (flag : Bool) (n : GoNode) : Out (List (String × GoVal)) :=
  if n.ctype ≠ .objectT then .err (.notObject n.ctype)
  else
    match json flag n with
    | .err e => .err e
    | .crash => .crash
    | .ok (.vobj fs) => .ok fs
    | .ok _ => .crash

/-- The child loop of `Maps` in src/node.go: skipped children are skipped
(when the flag is set) before `toMap` is consulted. -/
def mapsLoop (flag : Bool) : List GoNode → Out (List (List (String × GoVal)))
  | [] => .ok []
  | c :: cs =>
    if flag && c.skipped then mapsLoop flag cs
    else
      match toMap flag c with
      | .err e => .err e
      | .crash => .crash
      | .ok m =>
        match mapsLoop flag cs with
        | .ok ms => .ok (m :: ms)
        | .err e => .err e
        | .crash => .crash

/-- Mirror of `Maps` in src/node.go. -/
def maps (flag : Bool) (n : GoNode) : Out (List (List (String × GoVal))) :=
  if n.ctype ≠ .arrayT then .err (.notArray n.ctype)
  else mapsLoop flag n.children

/-- The loop of `SelectElement` in src/node.go over the sibling list. -/
def selectLoop : List GoNode → String → Option GoNode
  | [], _ => none
  | c :: cs, name => if c.data = name then some c else selectLoop cs name

/-- Mirror of `SelectElement` in src/node.go: first immediate child whose
`Data` equals the requested name, regardless of the child's node type. -/
def selectElement (n : GoNode) (name : String) : Option GoNode :=
  selectLoop n.children name

/-- Mirror of `GetParent` in src/node.go, with the node's ancestors listed
innermost first (`n.Parent` is the head).  The Go code reads
`n.Parent.level` unconditionally, so running past the root (whose parent
pointer is nil) dereferences nil and panics; that outcome is `none`. -/
def getParent : List GoNode → Nat → Option GoNode
  | [], _ => none
  | p :: rest, lvl => if p.level = lvl then some p else getParent rest lvl

/-- Go's decimal rendering of an integer (`fmt.Sprintf("%v", n)`). -/
def renderInt (v : Int) : String := toString v

/-- Model of `strconv.FormatFloat(v, 'f', -1, 64)` (shortest round-trip
decimal).  Every float this development ever renders is integral, where
FormatFloat yields the plain decimal integer text; non-integral rationals
are given a definite fallback rendering that no theorem depends on. -/
def renderF (q : ℚ) : String :=
  if q.den = 1 then toString q.num else toString q

/-- Model of `fmt.Sprintf("%v", idata)` in `SetInnerData` for the scalar
kinds accepted there (bool, string, the integer kinds, float32/float64).
The composite arms are unreachable: `SetInnerData` panics on them first. -/
def renderV : GoVal → String
  | .vnull => ""
  | .vbool b => if b then "true" else "false"
  | .vstr s => s
  | .vint _ v => renderInt v
  | .vf32 q => renderF q
  | .vf64 q => renderF q
  | .varr _ => ""
  | .vobj _ => ""

def GoNode.withIdata : GoNode → GoVal → GoNode
  | .mk t d l ct _ sk cs, id => .mk t d l ct id sk cs

def GoNode.withData : GoNode → String → GoNode
  | .mk t _ l ct id sk cs, d => .mk t d l ct id sk cs

def GoNode.withCtype : GoNode → CType → GoNode
  | .mk t d l _ id sk cs, ct => .mk t d l ct id sk cs

/-- The tag `SetInnerData` derives for a non-nil value by looking up
`reflect.TypeOf(idata).Name()` in the `types` map of src/node.go; `none`
models the panic for kinds absent from that map (composite types have an
empty type name). -/
def setTagOf : GoVal → Option CType
  | .vbool _ => some .boolT
  | .vstr _ => some .stringT
  | .vint k _ => some (ctypeOfInt k)
  | .vf32 _ => some .float32T
  | .vf64 _ => some .float64T
  | _ => none

/-- Mirror of `SetInnerData` in src/node.go.  An `ElementNode` delegates to
`ChildNodes()[0]` (indexing an empty child list is a panic, `none`); a
`TextNode` stores the payload and, for non-nil values, re-renders its `Data`
— and in both cases writes the derived tag to `n.Parent.contentType`.  In
the functional embedding that parent write is returned as the second
component and applied by the enclosing element (a `DocumentNode` matches
neither branch and is left unchanged). -/
def setInnerDataCore : GoNode → GoVal → Option (GoNode × Option CType)
  | .mk t d l ct id sk cs, v =>
    match t with
    | .text =>
      match v with
      | .vnull => some (.mk t d l ct .vnull sk cs, some .nullT)
      | _ =>
        match setTagOf v with
        | none => none
        | some newTag => some (.mk t (renderV v) l ct v sk cs, some newTag)
    | .element =>
      match cs with
      | [] => none
      | c :: rest =>
        match setInnerDataCore c v with
        | none => none
        | some (c2, some newTag) => some (.mk t d l newTag id sk (c2 :: rest), none)
        | some (c2, none) => some (.mk t d l ct id sk (c2 :: rest), none)
    | .document => some (.mk t d l ct id sk cs, none)

/-- `SetInnerData` called on a node, returning the updated subtree (the
parent-tag write of a directly targeted `TextNode` cannot escape a subtree,
so element-level use is the faithful entry point). -/
def setInnerData (n : GoNode) (v : GoVal) : Option GoNode :=
  (setInnerDataCore n v).map Prod.fst

/-- Replace the element at an index, leaving the list unchanged when the
index is out of range.  Used to address nodes by paths in the embedding. -/
def updateNth : List GoNode → Nat → (GoNode → GoNode) → List GoNode
  | [], _, _ => []
  | c :: cs, 0, f => f c :: cs
  | c :: cs, i + 1, f => c :: updateNth cs i f

def removeNth : List GoNode → Nat → List GoNode
  | [], _ => []
  | _ :: cs, 0 => cs
  | c :: cs, i + 1 => c :: removeNth cs i

/-- The node reached from `n` by the path of child indices `p`. -/
def nodeAt? (n : GoNode) : List Nat → Option GoNode
  | [] => some n
  | i :: p =>
    match n.children.get? i with
    | some c => nodeAt? c p
    | none => none

/-- `SetSkipped b` applied to the node at path `p`. -/
def setSkippedAt (n : GoNode) (p : List Nat) (b : Bool) : GoNode :=
  match p with
  | [] => n.withSkipped b
  | i :: p2 => n.withChildren (updateNth n.children i (fun c => setSkippedAt c p2 b))

/-- Remove the subtree at (nonempty) path `p`; used to state what an output
would look like if an excluded node were genuinely absent. -/
def removeAt (n : GoNode) : List Nat → GoNode
  | [] => n
  | [i] => n.withChildren (removeNth n.children i)
  | i :: p2 => n.withChildren (updateNth n.children i (fun c => removeAt c p2))

mutual

/-- The tree with every `skipped` flag erased: two nodes with equal `shape`
have identical topology and payloads. -/
def shape : GoNode → GoNode
  | .mk t d l ct id _ cs => .mk t d l ct id false (shapeList cs)

def shapeList : List GoNode → List GoNode
  | [] => []
  | c :: cs => shape c :: shapeList cs

end

/-- Ordering of object fields by key, as `sort.Strings(keys)` orders the key
slice in `parseValue` (src/node.go). -/
def keyle (a b : String × GoVal) : Prop := a.1 ≤ b.1

instance : DecidableRel keyle := fun a b => inferInstanceAs (Decidable (a.1 ≤ b.1))

instance : IsTotal (String × GoVal) keyle :=
  ⟨fun a b => le_total a.1 b.1⟩

instance : IsTrans (String × GoVal) keyle :=
  ⟨fun _ _ _ h1 h2 => le_trans h1 h2⟩

/-- The field list in the order `parseValue` visits a Go map: keys collected,
sorted with `sort.Strings`, then looked up.  On an association list with
distinct keys (the only maps this library builds or receives) that is
exactly a stable sort of the fields by key. -/
def sortFields (fs : List (String × GoVal)) : List (String × GoVal) :=
  List.insertionSort keyle fs

theorem sizeOf_of_perm {a : Type} [SizeOf a] {l1 l2 : List a} (h : l1.Perm l2) :
    sizeOf l1 = sizeOf l2 := by
  induction h with
  | nil => rfl
  | cons x _ ih => simp only [List.cons.sizeOf_spec]; omega
  | swap x y l => simp only [List.cons.sizeOf_spec]; omega
  | trans _ _ ih1 ih2 => omega

theorem sizeOf_sortFields (fs : List (String × GoVal)) : sizeOf (sortFields fs) = sizeOf fs :=
  sizeOf_of_perm (List.perm_insertionSort keyle fs)

mutual

/-- Mirror of `parseValue` in src/node.go, split by the kind of the value.
It returns the `contentType` assigned to `top` together with the child list
built under `top`; children are created at depth `level` (`addNode` always
takes its append branch because every created child has `n.level =
top.level + 1`).  Scalars become one `TextNode` whose `Data` renders the
value (`FormatFloat(_, 'f', -1, 64)` for floats, `%v` otherwise) and whose
`idata` stores it; nil becomes an empty-text `TextNode`; slices become
anonymous `ElementNode`s recursed at `level+1`; maps become named
`ElementNode`s visited in sorted key order. -/
def parseVal : GoVal → Nat → CType × List GoNode
  | .vnull, level => (.nullT, [.mk .text "" level .emptyT .vnull false []])
  | .vbool b, level =>
    (.boolT,
      [.mk .text (if b then "true" else "false") level .emptyT (.vbool b) false []])
  | .vstr s, level => (.stringT, [.mk .text s level .emptyT (.vstr s) false []])
  | .vint k v, level =>
    (ctypeOfInt k, [.mk .text (renderInt v) level .emptyT (.vint k v) false []])
  | .vf32 q, level =>
    (.float32T, [.mk .text (renderF q) level .emptyT (.vf32 q) false []])
  | .vf64 q, level =>
    (.float64T, [.mk .text (renderF q) level .emptyT (.vf64 q) false []])
  | .varr xs, level => (.arrayT, parseArr xs level)
  | .vobj fs, level => (.objectT, parseObj (sortFields fs) level)
termination_by x _ => sizeOf x
decreasing_by
  all_goals simp_wf
  have h := sizeOf_sortFields fs
  omega

def parseArr : List GoVal → Nat → List GoNode
  | [], _ => []
  | x :: xs, level =>
    (match parseVal x (level + 1) with
      | (ct, kids) => GoNode.mk .element "" level ct .vnull false kids) :: parseArr xs level
termination_by xs _ => sizeOf xs
decreasing_by
  all_goals simp_wf
  all_goals omega

def parseObj : List (String × GoVal) → Nat → List GoNode
  | [], _ => []
  | (k, v) :: fs, level =>
    (match parseVal v (level + 1) with
      | (ct, kids) => GoNode.mk .element k level ct .vnull false kids) :: parseObj fs level
termination_by fs _ => sizeOf fs
decreasing_by
  all_goals simp_wf
  all_goals omega

end

/-- Mirror of `parse` in src/node.go applied to the already-decoded dynamic
value: the document node is created with zero `level`, empty `Data` and nil
`idata`, and `parseValue(v, doc, 1)` assigns its `contentType` and children
(the switch in `parse` pre-assigns the same tag `parseValue` then writes). -/
def parseDoc (d : GoVal) : GoNode :=
  match parseVal d 1 with
  | (ct, cs) => .mk .document "" 0 ct .vnull false cs

/-- Mirror of `ParseFromMaps` in src/node.go: the document is built over the
record slice exactly as `parse` builds it over a decoded top-level array. -/
def parseFromMaps (records : List (List (String × GoVal))) : GoNode :=
  parseDoc (.varr (records.map GoVal.vobj))

mutual

/-- Canonical form of a dynamic value as a JSON document: every object's
fields sorted by key.  Two values denote the same JSON document (object
fields being unordered) exactly when their canonical forms are equal. -/
def canon : GoVal → GoVal
  | .varr xs => .varr (canonList xs)
  | .vobj fs => .vobj (sortFields (canonFields fs))
  | x => x

def canonList : List GoVal → List GoVal
  | [] => []
  | x :: xs => canon x :: canonList xs

def canonFields : List (String × GoVal) → List (String × GoVal)
  | [] => []
  | (k, v) :: fs => (k, canon v) :: canonFields fs

end

/-- JSON equality of dynamic values: equality of canonical forms (array
order and scalar values compared exactly, object field order ignored). -/
def jeq (a b : GoVal) : Prop := canon a = canon b

mutual

/-- Whether a dynamic value is one a standard JSON decoder can produce:
scalars are only nil / bool / float64 / string, and every object's keys are
distinct (Go maps cannot hold duplicates). -/
def decoded : GoVal → Bool
  | .vnull => true
  | .vbool _ => true
  | .vstr _ => true
  | .vint _ _ => false
  | .vf32 _ => false
  | .vf64 _ => true
  | .varr xs => decodedList xs
  | .vobj fs => decide (fs.map Prod.fst).Nodup && decodedFields fs

def decodedList : List GoVal → Bool
  | [] => true
  | x :: xs => decoded x && decodedList xs

def decodedFields : List (String × GoVal) → Bool
  | [] => true
  | (_, v) :: fs => decoded v && decodedFields fs

end

/-- Modelled from the spec: the QueryEngine (`find`) is not among the
provided source files (only its tests and callers are), so §4.4 of the
specification is embedded directly.  Query results are lists of paths into
the queried tree — paths are node identity, as §4.4's deduplication
requires.  `splitPattern` is the tokenizer: the pattern split on every
`/`, empty tokens marking a descendant axis for the following token. -/
def splitAux : List Char → List Char → List String
  | [], acc => [String.mk acc.reverse]
  | c :: cs, acc =>
    if c = '/' then String.mk acc.reverse :: splitAux cs [] else splitAux cs (c :: acc)

/-- Modelled from the spec: pattern tokenization for the missing `find`. -/
def splitPattern (s : String) : List String := splitAux s.toList []

/-- Modelled from the spec: child-axis step for the missing `find` — the
immediate children of the context node (whose children are `cs`, reached at
path `p`) whose label matches the token, `*` matching any label. -/
def childMatches : List GoNode → Nat → List Nat → String → List (List Nat)
  | [], _, _, _ => []
  | c :: cs, i, p, tok =>
    (if tok = "*" ∨ c.data = tok then [p ++ [i]] else []) ++ childMatches cs (i + 1) p tok

mutual

/-- Modelled from the spec: descendant-axis step for the missing `find` —
every strict descendant of the context node, found by an exhaustive
preorder subtree walk, whose label matches the token (`*` matching any). -/
def descMatches : GoNode → List Nat → String → List (List Nat)
  | .mk _ _ _ _ _ _ cs, p, tok => descMatchesList cs 0 p tok

def descMatchesList : List GoNode → Nat → List Nat → String → List (List Nat)
  | [], _, _, _ => []
  | c :: cs, i, p, tok =>
    (if tok = "*" ∨ c.data = tok then [p ++ [i]] else [])
      ++ descMatches c (p ++ [i]) tok ++ descMatchesList cs (i + 1) p tok

end

/-- Modelled from the spec: one token applied to every context node in
order (union in first-encountered order). -/
def stepCtx (t : GoNode) (desc : Bool) (tok : String) : List (List Nat) → List (List Nat)
  | [] => []
  | p :: ps =>
    (match nodeAt? t p with
      | none => []
      | some n => if desc then descMatches n p tok else childMatches n.children 0 p tok)
      ++ stepCtx t desc tok ps

/-- Modelled from the spec: token loop of the missing `find` — a pending
axis defaults to child, an empty token sets it to descendant, a real token
applies it and resets it; a trailing empty token (malformed pattern) yields
the empty result rather than an error. -/
def evalToks (t : GoNode) : List String → Bool → List (List Nat) → List (List Nat)
  | [], desc, ctx => if desc then [] else ctx
  | tok :: rest, desc, ctx =>
    if tok = "" then evalToks t rest true ctx
    else evalToks t rest false (stepCtx t desc tok ctx)

/-- Keep-first deduplication of a path list (deduplication by node
identity in first-encountered order, as §4.4 prescribes). -/
def dedupAcc (seen : List (List Nat)) : List (List Nat) → List (List Nat)
  | [] => []
  | p :: ps => if p ∈ seen then dedupAcc seen ps else p :: dedupAcc (p :: seen) ps

/-- Modelled from the spec: the missing `find(root, pattern)` — tokenize,
evaluate from the context `{root}`, deduplicate keeping first occurrences. -/
def findPaths (t : GoNode) (pattern : String) : List (List Nat) :=
  dedupAcc [] (evalToks t (splitPattern pattern) false [[]])

/-- Member-wise induction principle for `GoVal` (the auto-generated recursor
does not thread the nested `List` occurrences). -/
def GoVal.inductOn (P : GoVal → Prop)
    (hnull : P .vnull) (hbool : ∀ b, P (.vbool b)) (hstr : ∀ s, P (.vstr s))
    (hint : ∀ k v, P (.vint k v)) (hf32 : ∀ q, P (.vf32 q)) (hf64 : ∀ q, P (.vf64 q))
    (harr : ∀ xs, (∀ x ∈ xs, P x) → P (.varr xs))
    (hobj : ∀ fs, (∀ kv ∈ fs, P kv.2) → P (.vobj fs)) : ∀ v, P v
  | .vnull => hnull
  | .vbool b => hbool b
  | .vstr s => hstr s
  | .vint k v => hint k v
  | .vf32 q => hf32 q
  | .vf64 q => hf64 q
  | .varr xs =>
    harr xs (fun x hx => GoVal.inductOn P hnull hbool hstr hint hf32 hf64 harr hobj x)
  | .vobj fs =>
    hobj fs (fun kv hkv => GoVal.inductOn P hnull hbool hstr hint hf32 hf64 harr hobj kv.2)
termination_by v => sizeOf v
decreasing_by
  · have h := List.sizeOf_lt_of_mem hx
    simp only [GoVal.varr.sizeOf_spec]
    omega
  · have h := List.sizeOf_lt_of_mem hkv
    obtain ⟨k, v2⟩ := kv
    simp only [GoVal.vobj.sizeOf_spec, Prod.mk.sizeOf_spec] at *
    omega

/-- Member-wise induction principle for `GoNode`. -/
def GoNode.inductOn (P : GoNode → Prop)
    (h : ∀ t d l ct id sk cs, (∀ c ∈ cs, P c) → P (.mk t d l ct id sk cs)) : ∀ n, P n
  | .mk t d l ct id sk cs =>
    h t d l ct id sk cs (fun c hc => GoNode.inductOn P h c)
termination_by n => sizeOf n
decreasing_by
  have h2 := List.sizeOf_lt_of_mem hc
  simp only [GoNode.mk.sizeOf_spec]
  omega

theorem parseDoc_eq (d : GoVal) :
    parseDoc d = .mk .document "" 0 (parseVal d 1).1 .vnull false (parseVal d 1).2 := by
  unfold parseDoc
  rcases parseVal d 1 with ⟨ct, cs⟩
  rfl

theorem canonFields_eq_map (fs : List (String × GoVal)) :
    canonFields fs = fs.map (fun kv => (kv.1, canon kv.2)) := by
  induction fs with
  | nil => rfl
  | cons kv fs ih => obtain ⟨k, v⟩ := kv; simp [canonFields, ih]

theorem sortFields_map_canon (fs : List (String × GoVal)) :
    (sortFields fs).map (fun kv => (kv.1, canon kv.2)) =
      sortFields (fs.map (fun kv => (kv.1, canon kv.2))) := by
  exact List.map_insertionSort keyle keyle _ fs (fun a _ b _ => Iff.rfl)

theorem canonList_idem (xs : List GoVal) (ih : ∀ x ∈ xs, canon (canon x) = canon x) :
    canonList (canonList xs) = canonList xs := by
  induction xs with
  | nil => rfl
  | cons x xs ihl =>
    simp only [canonList]
    rw [ih x (by simp), ihl (fun y hy => ih y (by simp [hy]))]

theorem canonFields_of_canonical (l : List (String × GoVal))
    (h : ∀ kv ∈ l, canon kv.2 = kv.2) : canonFields l = l := by
  induction l with
  | nil => rfl
  | cons kv l ihl =>
    obtain ⟨k, v⟩ := kv
    simp only [canonFields]
    rw [show canon v = v from h (k, v) (by simp), ihl (fun y hy => h y (by simp [hy]))]

/-- Canonicalization is idempotent, so `jeq (canon d) d` always holds. -/
theorem canon_canon : ∀ v, canon (canon v) = canon v := by
  intro v
  induction v using GoVal.inductOn with
  | hnull => rfl
  | hbool b => rfl
  | hstr s => rfl
  | hint k v => rfl
  | hf32 q => rfl
  | hf64 q => rfl
  | harr xs ih => simp only [canon]; rw [canonList_idem xs ih]
  | hobj fs ih =>
    simp only [canon]
    have hmem : ∀ kv ∈ sortFields (canonFields fs), canon kv.2 = kv.2 := by
      intro kv hkv
      rw [sortFields, List.mem_insertionSort, canonFields_eq_map, List.mem_map] at hkv
      obtain ⟨kv0, hkv0, hmap⟩ := hkv
      rw [← hmap]
      exact ih kv0 hkv0
    rw [canonFields_of_canonical _ hmem]
    simp only [sortFields]
    rw [(List.sorted_insertionSort keyle (canonFields fs)).insertionSort_eq]

/-- The element-node loop of the array branch of `parseValue` round-trips
through `JSON(false)`. -/
theorem jsonArr_parseArr (xs : List GoVal) (lv : Nat)
    (ih : ∀ x ∈ xs, ∀ lv2 l0 : Nat, ∀ t : GoNodeType, ∀ dat : String, ∀ sk : Bool,
      t ≠ .text →
      json false (.mk t dat l0 (parseVal x lv2).1 .vnull sk (parseVal x lv2).2) =
        .ok (canon x)) :
    jsonArr false (parseArr xs lv) = .ok (canonList xs) := by
  induction xs with
  | nil => rw [parseArr, jsonArr, canonList]
  | cons x xs ihl =>
    rw [parseArr]
    rcases hp : parseVal x (lv + 1) with ⟨ct, kids⟩
    have hx := ih x (by simp) (lv + 1) lv .element "" false (by decide)
    rw [hp] at hx
    have ht := ihl (fun y hy => ih y (by simp [hy]))
    rw [jsonArr, canonList]
    simp only [GoNode.skipped, Bool.false_and, Bool.false_eq_true, if_false, hx, ht]

/-- The element-node loop of the object branch of `parseValue` round-trips
through `JSON(false)`. -/
theorem jsonObj_parseObj (gs : List (String × GoVal)) (lv : Nat)
    (ih : ∀ kv ∈ gs, ∀ lv2 l0 : Nat, ∀ t : GoNodeType, ∀ dat : String, ∀ sk : Bool,
      t ≠ .text →
      json false (.mk t dat l0 (parseVal kv.2 lv2).1 .vnull sk (parseVal kv.2 lv2).2) =
        .ok (canon kv.2)) :
    jsonObj false (parseObj gs lv) = .ok (gs.map (fun kv => (kv.1, canon kv.2))) := by
  induction gs with
  | nil => rw [parseObj, jsonObj]; rfl
  | cons kv gs ihl =>
    obtain ⟨k, v⟩ := kv
    rw [parseObj]
    rcases hp : parseVal v (lv + 1) with ⟨ct, kids⟩
    have hx := ih (k, v) (by simp) (lv + 1) lv .element k false (by decide)
    rw [hp] at hx
    have ht := ihl (fun y hy => ih y (by simp [hy]))
    rw [jsonObj]
    simp only [GoNode.skipped, Bool.false_and, Bool.false_eq_true, if_false, hx, ht,
      GoNode.data, List.map]

/-- Main round-trip lemma: `JSON(false)` of any non-text node wrapping the
output of `parseValue` recovers the canonical form of the parsed value (the
wrapper's data, level and skipped flag are never consulted; its type is only
consulted by `InnerText` under a `bool` tag, where a text wrapper would
shadow the leaf). -/
theorem json_false_parseVal :
    ∀ (v : GoVal) (lv l0 : Nat) (t : GoNodeType) (dat : String) (sk : Bool), t ≠ .text →
      json false (.mk t dat l0 (parseVal v lv).1 .vnull sk (parseVal v lv).2) =
        .ok (canon v) := by
  intro v
  induction v using GoVal.inductOn with
  | hnull =>
    intro lv l0 t dat sk ht
    rw [show parseVal GoVal.vnull lv =
        (.nullT, [.mk .text "" lv .emptyT .vnull false []]) from by rw [parseVal]]
    rw [json]
    rfl
  | hbool b =>
    intro lv l0 t dat sk ht
    rw [show parseVal (GoVal.vbool b) lv =
        (.boolT,
          [.mk .text (if b then "true" else "false") lv .emptyT (.vbool b) false []]) from by
      rw [parseVal]]
    rw [json]
    cases b <;>
      simp [innerData, GoVal.isNil, GoNode.idata, innerText, innerTextList, ht,
        goParseBool, canon]
  | hstr s =>
    intro lv l0 t dat sk ht
    rw [show parseVal (GoVal.vstr s) lv =
        (.stringT, [.mk .text s lv .emptyT (.vstr s) false []]) from by rw [parseVal]]
    rw [json]
    rfl
  | hint k v =>
    intro lv l0 t dat sk ht
    cases k <;> (simp only [parseVal, ctypeOfInt]; rw [json]; rfl)
  | hf32 q =>
    intro lv l0 t dat sk ht
    rw [show parseVal (GoVal.vf32 q) lv =
        (.float32T, [.mk .text (renderF q) lv .emptyT (.vf32 q) false []]) from by
      rw [parseVal]]
    rw [json]
    rfl
  | hf64 q =>
    intro lv l0 t dat sk ht
    rw [show parseVal (GoVal.vf64 q) lv =
        (.float64T, [.mk .text (renderF q) lv .emptyT (.vf64 q) false []]) from by
      rw [parseVal]]
    rw [json]
    rfl
  | harr xs ih =>
    intro lv l0 t dat sk ht
    rw [show parseVal (GoVal.varr xs) lv = (.arrayT, parseArr xs lv) from by rw [parseVal]]
    rw [json]
    simp only [innerData, GoVal.isNil, Bool.false_eq_true, if_false]
    rw [jsonArr_parseArr xs lv ih]
    rw [show canon (GoVal.varr xs) = .varr (canonList xs) from by rw [canon]]
  | hobj fs ih =>
    intro lv l0 t dat sk ht
    rw [show parseVal (GoVal.vobj fs) lv = (.objectT, parseObj (sortFields fs) lv) from by
      rw [parseVal]]
    rw [json]
    simp only [innerData, GoVal.isNil, Bool.false_eq_true, if_false]
    have ih2 : ∀ kv ∈ sortFields fs, ∀ lv2 l0 : Nat, ∀ t : GoNodeType, ∀ dat : String,
        ∀ sk : Bool, t ≠ .text →
        json false (.mk t dat l0 (parseVal kv.2 lv2).1 .vnull sk (parseVal kv.2 lv2).2) =
          .ok (canon kv.2) := by
      intro kv hkv
      rw [sortFields, List.mem_insertionSort] at hkv
      exact ih kv hkv
    rw [jsonObj_parseObj (sortFields fs) lv ih2]
    rw [show canon (GoVal.vobj fs) = .vobj (sortFields (canonFields fs)) from by rw [canon]]
    rw [sortFields_map_canon, canonFields_eq_map]

theorem parseArr_eq_map (xs : List GoVal) (lv : Nat) :
    parseArr xs lv = xs.map (fun x =>
      GoNode.mk .element "" lv (parseVal x (lv + 1)).1 .vnull false (parseVal x (lv + 1)).2) := by
  induction xs with
  | nil => rw [parseArr]; rfl
  | cons x xs ihl =>
    rw [parseArr, ihl]
    rcases hp : parseVal x (lv + 1) with ⟨ct, kids⟩
    simp [hp]

theorem parseObj_eq_map (gs : List (String × GoVal)) (lv : Nat) :
    parseObj gs lv = gs.map (fun kv =>
      GoNode.mk .element kv.1 lv (parseVal kv.2 (lv + 1)).1 .vnull false
        (parseVal kv.2 (lv + 1)).2) := by
  induction gs with
  | nil => rw [parseObj]; rfl
  | cons kv gs ihl =>
    obtain ⟨k, v⟩ := kv
    rw [parseObj, ihl]
    rcases hp : parseVal v (lv + 1) with ⟨ct, kids⟩
    simp [hp]

/-- C1: for every dynamic value a standard JSON decoder can produce
(scalars nil/bool/float64/string, nested arrays and maps with distinct
keys — exactness of double-precision representation being captured by
modelling numbers as exact rationals), `JSON(false)` of the tree `parse`
builds from it succeeds and returns a value JSON-equal to the decoded
value itself. -/
theorem parse_json_false_roundtrip (d : GoVal) (hd : decoded d = true) :
    ∃ v, json false (parseDoc d) = .ok v ∧ jeq v d := by
  refine ⟨canon d, ?_, canon_canon d⟩
  rw [parseDoc_eq]
  exact json_false_parseVal d 1 0 .document "" false (by decide)

/-- Witness for C1 at a concrete decoded document. -/
theorem parse_json_false_roundtrip_witness :
    ∃ v,
      json false (parseDoc (.vobj [("b", .vf64 3), ("a", .varr [.vnull, .vstr "x"])])) =
          .ok v ∧
        jeq v (.vobj [("b", .vf64 3), ("a", .varr [.vnull, .vstr "x"])]) :=
  parse_json_false_roundtrip (.vobj [("b", .vf64 3), ("a", .varr [.vnull, .vstr "x"])])
    (by rfl)

/-- C2 (counterexample): parsing the object document written with keys in
the order `b`, `a` yields children labelled `a`, `b` — not the source
document's written key order. -/
theorem parse_object_order_counterexample :
    (parseVal (.vobj [("b", .vf64 1), ("a", .vf64 2)]) 1).2.map GoNode.data = ["a", "b"]
      ∧ ([("b", GoVal.vf64 1), ("a", GoVal.vf64 2)].map Prod.fst = ["b", "a"]
        ∧ ["a", "b"] ≠ ["b", "a"]) := by
  refine ⟨?_, by decide, by decide⟩
  simp +decide [parseVal, parseObj, sortFields, List.insertionSort, List.orderedInsert,
    keyle, renderF, GoNode.data]

/-- C2 (amended): the named children of an object-tagged container built by
`parseValue` appear in lexicographically sorted key order (a permutation of
the written keys, since Go map iteration order is unusable), and array
children appear in positional order. -/
theorem parse_child_order (fs : List (String × GoVal)) (xs : List GoVal) (lv : Nat) :
    ((parseVal (.vobj fs) lv).2.map GoNode.data = (sortFields fs).map Prod.fst
        ∧ List.Sorted (· ≤ ·) ((parseVal (.vobj fs) lv).2.map GoNode.data)
        ∧ ((parseVal (.vobj fs) lv).2.map GoNode.data).Perm (fs.map Prod.fst))
      ∧ (parseVal (.varr xs) lv).2 = xs.map (fun x =>
          GoNode.mk .element "" lv (parseVal x (lv + 1)).1 .vnull false
            (parseVal x (lv + 1)).2) := by
  have hlab : (parseVal (.vobj fs) lv).2.map GoNode.data = (sortFields fs).map Prod.fst := by
    rw [show parseVal (.vobj fs) lv = (.objectT, parseObj (sortFields fs) lv) from by
      rw [parseVal]]
    rw [parseObj_eq_map, List.map_map]
    rfl
  refine ⟨⟨hlab, ?_, ?_⟩, ?_⟩
  · rw [hlab]
    exact List.Pairwise.map Prod.fst (fun a b h => h)
      (List.sorted_insertionSort keyle fs)
  · rw [hlab]
    exact (List.perm_insertionSort keyle fs).map Prod.fst
  · rw [show parseVal (.varr xs) lv = (.arrayT, parseArr xs lv) from by rw [parseVal]]
    exact parseArr_eq_map xs lv

/-- The decoded form of the C3 test document
`[{"id":1,"asset_id":1,"layers":[{"asset_id":11}]},{"id":2,"asset_id":2}]`
(fields listed in written order; the values are JSON numbers, hence
float64). -/
def assetDoc : GoVal :=
  .varr
    [.vobj [("id", .vf64 1), ("asset_id", .vf64 1),
        ("layers", .varr [.vobj [("asset_id", .vf64 11)]])],
      .vobj [("id", .vf64 2), ("asset_id", .vf64 2)]]

/-- The tree `parse` builds from `assetDoc`, written out literally (object
keys in sorted order, scalar leaves carrying the rendered text). -/
def assetTree : GoNode :=
  .mk .document "" 0 .arrayT .vnull false
    [.mk .element "" 1 .objectT .vnull false
      [.mk .element "asset_id" 2 .float64T .vnull false
        [.mk .text "1" 3 .emptyT (.vf64 1) false []],
       .mk .element "id" 2 .float64T .vnull false
        [.mk .text "1" 3 .emptyT (.vf64 1) false []],
       .mk .element "layers" 2 .arrayT .vnull false
        [.mk .element "" 3 .objectT .vnull false
          [.mk .element "asset_id" 4 .float64T .vnull false
            [.mk .text "11" 5 .emptyT (.vf64 11) false []]]]],
     .mk .element "" 1 .objectT .vnull false
      [.mk .element "asset_id" 2 .float64T .vnull false
        [.mk .text "2" 3 .emptyT (.vf64 2) false []],
       .mk .element "id" 2 .float64T .vnull false
        [.mk .text "2" 3 .emptyT (.vf64 2) false []]]]

theorem parseVal_f64 (q : ℚ) (lv : Nat) :
    parseVal (.vf64 q) lv
      = (.float64T, [.mk .text (renderF q) lv .emptyT (.vf64 q) false []]) := by
  rw [parseVal]

theorem parseVal_arr (xs : List GoVal) (lv : Nat) :
    parseVal (.varr xs) lv = (.arrayT, parseArr xs lv) := by
  rw [parseVal]

theorem parseVal_obj (fs : List (String × GoVal)) (lv : Nat) :
    parseVal (.vobj fs) lv = (.objectT, parseObj (sortFields fs) lv) := by
  rw [parseVal]

theorem parseDoc_assetDoc : parseDoc assetDoc = assetTree := by
  have hs1 : sortFields [("asset_id", GoVal.vf64 11)] = [("asset_id", GoVal.vf64 11)] := by rfl
  have hs3 : sortFields [("id", GoVal.vf64 1), ("asset_id", GoVal.vf64 1),
        ("layers", GoVal.varr [GoVal.vobj [("asset_id", GoVal.vf64 11)]])]
      = [("asset_id", GoVal.vf64 1), ("id", GoVal.vf64 1),
        ("layers", GoVal.varr [GoVal.vobj [("asset_id", GoVal.vf64 11)]])] := by
    simp +decide [sortFields, List.insertionSort, List.orderedInsert, keyle]
  have hs2 : sortFields [("id", GoVal.vf64 2), ("asset_id", GoVal.vf64 2)]
      = [("asset_id", GoVal.vf64 2), ("id", GoVal.vf64 2)] := by
    simp +decide [sortFields, List.insertionSort, List.orderedInsert, keyle]
  simp only [parseDoc, assetDoc, parseVal_arr, parseVal_obj, parseVal_f64,
    hs1, hs3, hs2, parseObj, parseArr]
  rfl

/-- C3: evaluating `*/asset_id` (per the spec-modelled query engine) against
the tree parsed from the C3 test document returns exactly the two top-level
`asset_id` nodes, in order and duplicate-free, holding values 1 and 2; the
nested `asset_id` node (value 11, at path [0,2,0,0]) is not returned. -/
theorem find_wildcard_asset_ids :
    findPaths (parseDoc assetDoc) "*/asset_id" = [[0, 0], [1, 0]]
      ∧ (findPaths (parseDoc assetDoc) "*/asset_id").Nodup
      ∧ (nodeAt? (parseDoc assetDoc) [0, 0]).map GoNode.data = some "asset_id"
      ∧ (nodeAt? (parseDoc assetDoc) [0, 0]).map innerData = some (.vf64 1)
      ∧ (nodeAt? (parseDoc assetDoc) [1, 0]).map GoNode.data = some "asset_id"
      ∧ (nodeAt? (parseDoc assetDoc) [1, 0]).map innerData = some (.vf64 2)
      ∧ (nodeAt? (parseDoc assetDoc) [0, 2, 0, 0]).map innerData = some (.vf64 11)
      ∧ [0, 2, 0, 0] ∉ findPaths (parseDoc assetDoc) "*/asset_id" := by
  rw [parseDoc_assetDoc]
  exact ⟨rfl, by decide, rfl, rfl, rfl, rfl, rfl, by decide⟩

/-- C5 (counterexample): `SetInnerData(nil)` on a scalar leaf updates the
payload and the parent tag but leaves the leaf's literal text unchanged
(the `Data` write sits in the non-nil branch only), so the text is not
re-rendered from the new value (a null leaf's rendering is empty text). -/
theorem set_inner_data_nil_counterexample :
    setInnerData
        (.mk .element "k" 1 .float64T .vnull false
          [.mk .text "5" 2 .emptyT (.vf64 5) false []]) .vnull =
      some (.mk .element "k" 1 .nullT .vnull false
        [.mk .text "5" 2 .emptyT .vnull false []])
      ∧ "5" ≠ "" := ⟨rfl, by decide⟩

/-- C5 (amended): on an `Element` whose sole child is a `Text` node (and on
a `Text` leaf directly, where the requested parent tag is returned),
`SetInnerData(v)` for a supported non-nil scalar `v` replaces the payload,
re-renders the literal text from `v`, and sets the parent's tag to the tag
of `v`'s runtime kind, after which reading the value returns `v`; for nil
it replaces the payload and sets the `null` tag but leaves the literal
text unchanged.  (Text leaves carry the zero contentType, as built.) -/
theorem set_inner_data_consistency
    (key d0 : String) (l l2 : Nat) (ct0 : CType) (id0 id2 : GoVal) (sk0 sk2 : Bool)
    (v : GoVal) (tag : CType) (hv : setTagOf v = some tag) :
    (setInnerData (.mk .element key l ct0 id0 sk0 [.mk .text d0 l2 .emptyT id2 sk2 []]) v =
          some (.mk .element key l tag id0 sk0
            [.mk .text (renderV v) l2 .emptyT v sk2 []])
        ∧ innerData
            (.mk .element key l tag id0 sk0
              [.mk .text (renderV v) l2 .emptyT v sk2 []]) = v
        ∧ innerData (.mk .text (renderV v) l2 .emptyT v sk2 []) = v)
      ∧ (setInnerData (.mk .element key l ct0 id0 sk0 [.mk .text d0 l2 .emptyT id2 sk2 []])
            .vnull =
          some (.mk .element key l .nullT id0 sk0 [.mk .text d0 l2 .emptyT .vnull sk2 []])
        ∧ innerData
            (.mk .element key l .nullT id0 sk0 [.mk .text d0 l2 .emptyT .vnull sk2 []]) =
          .vnull)
      ∧ setInnerDataCore (.mk .text d0 l2 .emptyT id2 sk2 []) v =
          some (.mk .text (renderV v) l2 .emptyT v sk2 [], some tag)
      ∧ setInnerDataCore (.mk .text d0 l2 .emptyT id2 sk2 []) .vnull =
          some (.mk .text d0 l2 .emptyT .vnull sk2 [], some .nullT) := by
  cases v with
  | vnull => simp [setTagOf] at hv
  | varr xs => simp [setTagOf] at hv
  | vobj fs => simp [setTagOf] at hv
  | vbool b =>
    rw [show tag = .boolT from by simpa [setTagOf] using hv.symm]
    exact ⟨⟨rfl, rfl, rfl⟩, ⟨rfl, rfl⟩, rfl, rfl⟩
  | vstr s =>
    rw [show tag = .stringT from by simpa [setTagOf] using hv.symm]
    exact ⟨⟨rfl, rfl, rfl⟩, ⟨rfl, rfl⟩, rfl, rfl⟩
  | vint k w =>
    rw [show tag = ctypeOfInt k from by simpa [setTagOf] using hv.symm]
    cases k <;> exact ⟨⟨rfl, rfl, rfl⟩, ⟨rfl, rfl⟩, rfl, rfl⟩
  | vf32 q =>
    rw [show tag = .float32T from by simpa [setTagOf] using hv.symm]
    exact ⟨⟨rfl, rfl, rfl⟩, ⟨rfl, rfl⟩, rfl, rfl⟩
  | vf64 q =>
    rw [show tag = .float64T from by simpa [setTagOf] using hv.symm]
    exact ⟨⟨rfl, rfl, rfl⟩, ⟨rfl, rfl⟩, rfl, rfl⟩

/-- Witness for C5 at a concrete scalar leaf and value. -/
theorem set_inner_data_consistency_witness :
    setInnerData (.mk .element "n" 1 .stringT .vnull false
        [.mk .text "old" 2 .emptyT (.vstr "old") false []]) (.vint .i8 7) =
      some (.mk .element "n" 1 .int8T .vnull false
        [.mk .text "7" 2 .emptyT (.vint .i8 7) false []]) :=
  (set_inner_data_consistency "n" "old" 1 2 .stringT .vnull (.vstr "old")
    false false (.vint .i8 7) .int8T rfl).1.1

/-- C6 (counterexample): a `bool`-tagged node whose literal text is `"T"`
(neither `"true"` nor `"false"`) does not make `JSON` fail — `strconv.ParseBool`
accepts `"T"` and `JSON` returns `true`. -/
theorem json_bool_counterexample :
    json false
        (.mk .element "flag" 1 .boolT .vnull false
          [.mk .text "T" 2 .emptyT (.vbool true) false []]) =
      .ok (.vbool true)
      ∧ innerText
          (.mk .element "flag" 1 .boolT .vnull false
            [.mk .text "T" 2 .emptyT (.vbool true) false []]) = "T"
      ∧ ("T" ≠ "true" ∧ "T" ≠ "false") := ⟨rfl, rfl, by decide, by decide⟩

/-- C6 (amended): on a `bool`-tagged node with non-nil payload, `JSON`
re-parses the literal text with `strconv.ParseBool`, so it fails exactly
when the text is outside ParseBool's accepted set
{1,t,T,TRUE,true,True,0,f,F,FALSE,false,False}; the texts `"true"` and
`"false"` yield the corresponding booleans. -/
theorem json_bool_parse (n : GoNode) (flag : Bool) (hct : n.ctype = .boolT)
    (hnn : (innerData n).isNil = false) :
    json flag n =
        (match goParseBool (innerText n) with
          | some b => .ok (.vbool b)
          | none => .err (.boolParse (innerText n)))
      ∧ (∀ s, (goParseBool s).isSome = true ↔ s ∈ parseBoolAccepted)
      ∧ goParseBool "true" = some true ∧ goParseBool "false" = some false := by
  refine ⟨?_, ?_, rfl, rfl⟩
  · obtain ⟨t, d, l, ct, id, sk, cs⟩ := n
    rw [show ct = .boolT from hct]
    rw [show ct = .boolT from hct] at hnn
    rw [json]
    simp only [hnn, Bool.false_eq_true, if_false]
  · intro s
    unfold goParseBool
    split_ifs with h1 h2 <;> simp [parseBoolAccepted] <;> tauto

/-- Witness for C6 at a concrete bool-tagged node. -/
theorem json_bool_parse_witness :
    json true
        (.mk .element "b" 1 .boolT .vnull false
          [.mk .text "false" 2 .emptyT (.vbool false) false []]) =
      (match goParseBool
          (innerText
            (.mk .element "b" 1 .boolT .vnull false
              [.mk .text "false" 2 .emptyT (.vbool false) false []])) with
        | some b => .ok (.vbool b)
        | none =>
          .err (.boolParse
            (innerText
              (.mk .element "b" 1 .boolT .vnull false
                [.mk .text "false" 2 .emptyT (.vbool false) false []])))) :=
  (json_bool_parse
    (.mk .element "b" 1 .boolT .vnull false
      [.mk .text "false" 2 .emptyT (.vbool false) false []]) true rfl rfl).1

/-- C7 (counterexample): asking for depth 5 from a node of depth 1 (sole
ancestor: the root, depth 0) does not produce an out-of-range error — the
walk calls `GetParent` on the root, whose `Parent` pointer is nil, and the
unconditional `n.Parent.level` read dereferences nil (a panic, modelled by
`none`); `GetParent` has no error channel at all. -/
theorem get_parent_counterexample :
    getParent [.mk .document "" 0 .arrayT .vnull false []] 5 = none := rfl

/-- C7 (amended): given the ancestor chain of a node of depth `d` (parent
first, levels `d-1, …, 1, 0`), `GetParent level` returns the ancestor whose
depth equals `level` whenever `level < d`, and runs off the root's nil
parent pointer and panics (modelled `none`) whenever `level ≥ d`, rather
than returning an out-of-range error. -/
theorem get_parent_spec (anc : List GoNode) (d lvl : Nat) (hlen : anc.length = d)
    (hlev : ∀ i (h : i < anc.length), (anc.get ⟨i, h⟩).level = d - 1 - i) :
    (lvl < d → ∃ j, ∃ hj : j < anc.length,
        getParent anc lvl = some (anc.get ⟨j, hj⟩) ∧ (anc.get ⟨j, hj⟩).level = lvl)
      ∧ (d ≤ lvl → getParent anc lvl = none) := by
  induction anc generalizing d with
  | nil =>
    subst hlen
    exact ⟨fun h => absurd h (by simp at h), fun _ => rfl⟩
  | cons p rest ih =>
    subst hlen
    have hL : (p :: rest).length = rest.length + 1 := rfl
    have hp : p.level = rest.length := by
      have h0 := hlev 0 (by simp)
      simpa using h0
    have hrest : ∀ i (h : i < rest.length),
        (rest.get ⟨i, h⟩).level = rest.length - 1 - i := by
      intro i h
      have h2 := hlev (i + 1) (by rw [hL]; omega)
      simp at h2
      rw [show rest.length - 1 - i = rest.length + 1 - 1 - (i + 1) from by omega]
      simpa using h2
    constructor
    · intro hlt
      rw [hL] at hlt
      by_cases heq : lvl = rest.length
      · refine ⟨0, by rw [hL]; omega, ?_, by simpa [hp] using heq.symm⟩
        simp [getParent, hp, heq]
      · have hlt2 : lvl < rest.length := by omega
        obtain ⟨j, hj, hgp, hlev2⟩ := (ih rest.length rfl hrest).1 hlt2
        refine ⟨j + 1, by rw [hL]; omega, ?_, by simpa using hlev2⟩
        simp only [getParent, hp]
        rw [if_neg (by omega)]
        simpa using hgp
    · intro hge
      rw [hL] at hge
      have hle : rest.length ≤ lvl := by omega
      have hne : p.level ≠ lvl := by omega
      simp only [getParent, if_neg hne]
      exact (ih rest.length rfl hrest).2 hle

/-- Witness for C7: in a chain of depth 2 (levels 1 then 0), depth 0 is
found and depth 3 panics. -/
theorem get_parent_spec_witness :
    (∃ j, ∃ hj : j < ([.mk .element "p" 1 .objectT .vnull false [],
          .mk .document "" 0 .arrayT .vnull false []] : List GoNode).length,
        getParent [.mk .element "p" 1 .objectT .vnull false [],
            .mk .document "" 0 .arrayT .vnull false []] 0 =
            some (([.mk .element "p" 1 .objectT .vnull false [],
              .mk .document "" 0 .arrayT .vnull false []] : List GoNode).get ⟨j, hj⟩)
          ∧ (([.mk .element "p" 1 .objectT .vnull false [],
              .mk .document "" 0 .arrayT .vnull false []] : List GoNode).get
              ⟨j, hj⟩).level = 0)
      ∧ getParent [.mk .element "p" 1 .objectT .vnull false [],
          .mk .document "" 0 .arrayT .vnull false []] 3 = none := by
  have h := get_parent_spec
    [.mk .element "p" 1 .objectT .vnull false [],
      .mk .document "" 0 .arrayT .vnull false []] 2 0 rfl
    (by
      intro i hi
      simp at hi
      interval_cases i <;> rfl)
  have h2 := get_parent_spec
    [.mk .element "p" 1 .objectT .vnull false [],
      .mk .document "" 0 .arrayT .vnull false []] 2 3 rfl
    (by
      intro i hi
      simp at hi
      interval_cases i <;> rfl)
  exact ⟨h.1 (by omega), h2.2 (by omega)⟩

/-- A scalar-bearing element: its sole child is a text leaf whose `Data` is
the scalar's literal text `"7"`. -/
def scalarElem : GoNode :=
  .mk .element "k" 1 .stringT .vnull false [.mk .text "7" 2 .emptyT (.vstr "7") false []]

theorem selectLoop_eq_find? (cs : List GoNode) (name : String) :
    selectLoop cs name = cs.find? (fun c => c.data == name) := by
  induction cs with
  | nil => rfl
  | cons c cs ih =>
    by_cases h : c.data = name
    · simp [selectLoop, List.find?, h, ih]
    · have hb : (c.data == name) = false := by simp [h]
      simp [selectLoop, List.find?, h, hb, ih]

/-- C9: `SelectElement` compares the requested name against the stored
`Data` of every immediate child regardless of node type (it is exactly a
first-match scan, `find?`, on `Data`); on a scalar-bearing element it can
return the `Text` leaf whose literal text equals the name, and it returns
nil when no immediate child's `Data` matches. -/
theorem select_element_spec :
    (∀ (n : GoNode) (name : String),
        selectElement n name = n.children.find? (fun c => c.data == name))
      ∧ (∀ (n : GoNode) (name : String),
          selectElement n name = none ↔ ∀ c ∈ n.children, c.data ≠ name)
      ∧ selectElement scalarElem "7" = some (.mk .text "7" 2 .emptyT (.vstr "7") false [])
      ∧ (GoNode.mk .text "7" 2 .emptyT (.vstr "7") false []).type = .text
      ∧ selectElement scalarElem "k" = none := by
  have hf : ∀ (n : GoNode) (name : String),
      selectElement n name = n.children.find? (fun c => c.data == name) :=
    fun n name => selectLoop_eq_find? n.children name
  refine ⟨hf, ?_, rfl, rfl, rfl⟩
  intro n name
  rw [hf, List.find?_eq_none]
  simp

/-- Witness for C9 at a concrete node and name. -/
theorem select_element_spec_witness :
    selectElement scalarElem "zz" =
      scalarElem.children.find? (fun c => c.data == "zz") :=
  (select_element_spec).1 scalarElem "zz"

/-- Whether a payload is acceptable for an integer tag of kind `k`: nil
(which short-circuits `JSON`) or an integer of exactly that kind. -/
def intOkAt (k : IntKind) : GoVal → Bool
  | .vnull => true
  | .vint k2 _ => decide (k2 = k)
  | _ => false

/-- Acceptable payloads for the `float32` tag. -/
def f32OkAt : GoVal → Bool
  | .vnull => true
  | .vf32 _ => true
  | _ => false

/-- Acceptable payloads for the `float64` tag. -/
def f64OkAt : GoVal → Bool
  | .vnull => true
  | .vf64 _ => true
  | _ => false

/-- Well-formedness of a node's scalar bookkeeping, per tag: the payload a
numeric tag will re-assert has the matching dynamic type (or is nil, which
short-circuits `JSON`), and a `bool` tag's literal text survives
`strconv.ParseBool`.  Trees built by `parseValue` satisfy this at every
node; it is exactly what rules out panics and boolean-parse errors. -/
def scalarOkAt : CType → GoVal → String → Bool
  | .boolT, iv, it => iv.isNil || (goParseBool it).isSome
  | .intT, iv, _ => intOkAt .i iv
  | .int8T, iv, _ => intOkAt .i8 iv
  | .int16T, iv, _ => intOkAt .i16 iv
  | .int32T, iv, _ => intOkAt .i32 iv
  | .int64T, iv, _ => intOkAt .i64 iv
  | .uintT, iv, _ => intOkAt .u iv
  | .uint8T, iv, _ => intOkAt .u8 iv
  | .uint16T, iv, _ => intOkAt .u16 iv
  | .uint32T, iv, _ => intOkAt .u32 iv
  | .uint64T, iv, _ => intOkAt .u64 iv
  | .float32T, iv, _ => f32OkAt iv
  | .float64T, iv, _ => f64OkAt iv
  | _, _, _ => true

mutual

/-- Every node of the tree satisfies `scalarOkAt`. -/
def scalarsOk : GoNode → Bool
  | n@(.mk _ _ _ _ _ _ cs) =>
    scalarOkAt n.ctype (innerData n) (innerText n) && scalarsOkList cs

def scalarsOkList : List GoNode → Bool
  | [] => true
  | c :: cs => scalarsOk c && scalarsOkList cs

end

theorem scalarsOkList_mem {cs : List GoNode} (h : scalarsOkList cs = true) :
    ∀ c ∈ cs, scalarsOk c = true := by
  induction cs with
  | nil => intro c hc; cases hc
  | cons x cs ih =>
    rw [scalarsOkList, Bool.and_eq_true] at h
    intro c hc
    rcases List.mem_cons.mp hc with hh | ht
    · rw [hh]; exact h.1
    · exact ih h.2 c ht

theorem jsonArr_ok (flag : Bool) (cs : List GoNode)
    (h : ∀ c ∈ cs, ∃ v, json flag c = .ok v) : ∃ vs, jsonArr flag cs = .ok vs := by
  induction cs with
  | nil => exact ⟨[], rfl⟩
  | cons c cs ih =>
    obtain ⟨vs, hvs⟩ := ih (fun x hx => h x (by simp [hx]))
    obtain ⟨v, hv⟩ := h c (by simp)
    rw [jsonArr]
    by_cases hsk : (flag && c.skipped) = true
    · rw [if_pos hsk]; exact ⟨vs, hvs⟩
    · rw [if_neg hsk, hv, hvs]; exact ⟨_, rfl⟩

theorem jsonObj_ok (flag : Bool) (cs : List GoNode)
    (h : ∀ c ∈ cs, ∃ v, json flag c = .ok v) : ∃ fs, jsonObj flag cs = .ok fs := by
  induction cs with
  | nil => exact ⟨[], rfl⟩
  | cons c cs ih =>
    obtain ⟨fs, hfs⟩ := ih (fun x hx => h x (by simp [hx]))
    obtain ⟨v, hv⟩ := h c (by simp)
    rw [jsonObj]
    by_cases hsk : (flag && c.skipped) = true
    · rw [if_pos hsk]; exact ⟨fs, hfs⟩
    · rw [if_neg hsk, hv, hfs]; exact ⟨_, rfl⟩

/-- On a scalar-well-formed tree, `JSON` always succeeds: no type assertion
can panic and no bool leaf can fail to parse. -/
theorem json_ok_of_scalarsOk :
    ∀ (n : GoNode) (flag : Bool), scalarsOk n = true → ∃ v, json flag n = .ok v := by
  intro n
  induction n using GoNode.inductOn with
  | h t d l ct id sk cs ih =>
    intro flag hok
    rw [scalarsOk, Bool.and_eq_true] at hok
    have hat := hok.1
    simp only [GoNode.ctype] at hat
    have ihs : ∀ c ∈ cs, ∃ v, json flag c = .ok v :=
      fun c hc => ih c hc flag (scalarsOkList_mem hok.2 c hc)
    by_cases hnil : (innerData (.mk t d l ct id sk cs)).isNil = true
    · cases ct
      all_goals rw [json, if_pos hnil]
      all_goals try (intro hx1 hx2 hx3; exact absurd hx2 (by decide))
      all_goals exact ⟨_, rfl⟩
    · cases ct
      all_goals rw [json, if_neg hnil]
      all_goals try (intro hx1 hx2 hx3; exact absurd hx2 (by decide))
      · exact ⟨_, rfl⟩
      · exact ⟨_, rfl⟩
      · obtain ⟨vs, hvs⟩ := jsonArr_ok flag cs ihs
        rw [hvs]; exact ⟨_, rfl⟩
      · obtain ⟨fs, hfs⟩ := jsonObj_ok flag cs ihs
        rw [hfs]; exact ⟨_, rfl⟩
      · exact ⟨_, rfl⟩
      · rw [scalarOkAt, Bool.or_eq_true] at hat
        rcases hat with hat | hat
        · exact absurd hat hnil
        · obtain ⟨b, hb⟩ := Option.isSome_iff_exists.mp hat
          rw [hb]; exact ⟨_, rfl⟩
      · exact ⟨_, rfl⟩
      · rcases hin : innerData (.mk t d l .intT id sk cs) with _ | b | s | ⟨k, w⟩ | q | q2 | xs | fs
        all_goals rw [hin] at hat hnil
        all_goals simp [GoVal.isNil] at hnil
        all_goals try (cases k)
        all_goals simp only [scalarOkAt, intOkAt, f32OkAt, f64OkAt] at hat
        all_goals first
          | (exact absurd hat (by decide))
          | (exact ⟨_, rfl⟩)
      · rcases hin : innerData (.mk t d l .int8T id sk cs) with _ | b | s | ⟨k, w⟩ | q | q2 | xs | fs
        all_goals rw [hin] at hat hnil
        all_goals simp [GoVal.isNil] at hnil
        all_goals try (cases k)
        all_goals simp only [scalarOkAt, intOkAt, f32OkAt, f64OkAt] at hat
        all_goals first
          | (exact absurd hat (by decide))
          | (exact ⟨_, rfl⟩)
      · rcases hin : innerData (.mk t d l .int16T id sk cs) with _ | b | s | ⟨k, w⟩ | q | q2 | xs | fs
        all_goals rw [hin] at hat hnil
        all_goals simp [GoVal.isNil] at hnil
        all_goals try (cases k)
        all_goals simp only [scalarOkAt, intOkAt, f32OkAt, f64OkAt] at hat
        all_goals first
          | (exact absurd hat (by decide))
          | (exact ⟨_, rfl⟩)
      · rcases hin : innerData (.mk t d l .int32T id sk cs) with _ | b | s | ⟨k, w⟩ | q | q2 | xs | fs
        all_goals rw [hin] at hat hnil
        all_goals simp [GoVal.isNil] at hnil
        all_goals try (cases k)
        all_goals simp only [scalarOkAt, intOkAt, f32OkAt, f64OkAt] at hat
        all_goals first
          | (exact absurd hat (by decide))
          | (exact ⟨_, rfl⟩)
      · rcases hin : innerData (.mk t d l .int64T id sk cs) with _ | b | s | ⟨k, w⟩ | q | q2 | xs | fs
        all_goals rw [hin] at hat hnil
        all_goals simp [GoVal.isNil] at hnil
        all_goals try (cases k)
        all_goals simp only [scalarOkAt, intOkAt, f32OkAt, f64OkAt] at hat
        all_goals first
          | (exact absurd hat (by decide))
          | (exact ⟨_, rfl⟩)
      · rcases hin : innerData (.mk t d l .uintT id sk cs) with _ | b | s | ⟨k, w⟩ | q | q2 | xs | fs
        all_goals rw [hin] at hat hnil
        all_goals simp [GoVal.isNil] at hnil
        all_goals try (cases k)
        all_goals simp only [scalarOkAt, intOkAt, f32OkAt, f64OkAt] at hat
        all_goals first
          | (exact absurd hat (by decide))
          | (exact ⟨_, rfl⟩)
      · rcases hin : innerData (.mk t d l .uint8T id sk cs) with _ | b | s | ⟨k, w⟩ | q | q2 | xs | fs
        all_goals rw [hin] at hat hnil
        all_goals simp [GoVal.isNil] at hnil
        all_goals try (cases k)
        all_goals simp only [scalarOkAt, intOkAt, f32OkAt, f64OkAt] at hat
        all_goals first
          | (exact absurd hat (by decide))
          | (exact ⟨_, rfl⟩)
      · rcases hin : innerData (.mk t d l .uint16T id sk cs) with _ | b | s | ⟨k, w⟩ | q | q2 | xs | fs
        all_goals rw [hin] at hat hnil
        all_goals simp [GoVal.isNil] at hnil
        all_goals try (cases k)
        all_goals simp only [scalarOkAt, intOkAt, f32OkAt, f64OkAt] at hat
        all_goals first
          | (exact absurd hat (by decide))
          | (exact ⟨_, rfl⟩)
      · rcases hin : innerData (.mk t d l .uint32T id sk cs) with _ | b | s | ⟨k, w⟩ | q | q2 | xs | fs
        all_goals rw [hin] at hat hnil
        all_goals simp [GoVal.isNil] at hnil
        all_goals try (cases k)
        all_goals simp only [scalarOkAt, intOkAt, f32OkAt, f64OkAt] at hat
        all_goals first
          | (exact absurd hat (by decide))
          | (exact ⟨_, rfl⟩)
      · rcases hin : innerData (.mk t d l .uint64T id sk cs) with _ | b | s | ⟨k, w⟩ | q | q2 | xs | fs
        all_goals rw [hin] at hat hnil
        all_goals simp [GoVal.isNil] at hnil
        all_goals try (cases k)
        all_goals simp only [scalarOkAt, intOkAt, f32OkAt, f64OkAt] at hat
        all_goals first
          | (exact absurd hat (by decide))
          | (exact ⟨_, rfl⟩)
      · rcases hin : innerData (.mk t d l .float32T id sk cs) with _ | b | s | ⟨k, w⟩ | q | q2 | xs | fs
        all_goals rw [hin] at hat hnil
        all_goals simp [GoVal.isNil] at hnil
        all_goals try (cases k)
        all_goals simp only [scalarOkAt, intOkAt, f32OkAt, f64OkAt] at hat
        all_goals first
          | (exact absurd hat (by decide))
          | (exact ⟨_, rfl⟩)
      · rcases hin : innerData (.mk t d l .float64T id sk cs) with _ | b | s | ⟨k, w⟩ | q | q2 | xs | fs
        all_goals rw [hin] at hat hnil
        all_goals simp [GoVal.isNil] at hnil
        all_goals try (cases k)
        all_goals simp only [scalarOkAt, intOkAt, f32OkAt, f64OkAt] at hat
        all_goals first
          | (exact absurd hat (by decide))
          | (exact ⟨_, rfl⟩)

theorem json_obj_shape (n : GoNode) (flag : Bool) (hct : n.ctype = .objectT) :
    ∀ v, json flag n = .ok v → ∃ fs, v = .vobj fs := by
  obtain ⟨t, d, l, ct, id, sk, cs⟩ := n
  simp only [GoNode.ctype] at hct
  subst hct
  intro v hv
  rw [json] at hv
  simp only [innerData, GoVal.isNil, Bool.false_eq_true, if_false] at hv
  rcases hj : jsonObj flag cs with fs | e | _ <;> rw [hj] at hv
  · exact ⟨fs, by injection hv.symm⟩
  · cases hv
  · cases hv

theorem toMap_ok_of (flag : Bool) (n : GoNode) (hct : n.ctype = .objectT)
    (hok : scalarsOk n = true) : ∃ fs, toMap flag n = .ok fs := by
  obtain ⟨v, hv⟩ := json_ok_of_scalarsOk n flag hok
  obtain ⟨fs, hfs⟩ := json_obj_shape n flag hct v hv
  subst hfs
  rw [toMap, if_neg (by simp [hct]), hv]
  exact ⟨fs, rfl⟩

theorem toMap_err_of (flag : Bool) (n : GoNode) (hct : n.ctype ≠ .objectT) :
    toMap flag n = .err (.notObject n.ctype) := by
  rw [toMap, if_pos hct]

/-- The children retained by a projection: all of them when the exclusion
flag is off, the non-skipped ones when it is on. -/
def retainedL (flag : Bool) (cs : List GoNode) : List GoNode :=
  if flag then cs.filter (fun c => !c.skipped) else cs

theorem mapsLoop_spec (flag : Bool) :
    ∀ cs : List GoNode, (∀ c ∈ cs, scalarsOk c = true) →
      ((∃ rs, mapsLoop flag cs = .ok rs ∧ rs.length = (retainedL flag cs).length) ↔
          ∀ c ∈ retainedL flag cs, c.ctype = .objectT)
        ∧ (∀ e, mapsLoop flag cs = .err e → e.isShape = true)
        ∧ mapsLoop flag cs ≠ .crash := by
  intro cs
  induction cs with
  | nil =>
    intro _
    refine ⟨⟨fun _ => ?_, fun _ => ⟨[], rfl, by cases flag <;> rfl⟩⟩, ?_, ?_⟩
    · intro c hc
      rw [show retainedL flag ([] : List GoNode) = [] from by cases flag <;> rfl] at hc
      cases hc
    · intro e he
      rw [mapsLoop] at he
      cases he
    · rw [mapsLoop]
      intro h
      cases h
  | cons c cs ih =>
    intro hok
    have ihs := ih (fun x hx => hok x (by simp [hx]))
    by_cases hsk : (flag && c.skipped) = true
    · obtain ⟨hflag, hcsk⟩ : flag = true ∧ c.skipped = true := by simpa using hsk
      have hret : retainedL flag (c :: cs) = retainedL flag cs := by
        subst hflag
        simp [retainedL, List.filter, hcsk]
      rw [mapsLoop, if_pos hsk, hret]
      exact ihs
    · have hret : retainedL flag (c :: cs) = c :: retainedL flag cs := by
        cases flag
        · rfl
        · simp only [Bool.true_and] at hsk
          simp [retainedL, List.filter, hsk]
      rw [mapsLoop, if_neg hsk, hret]
      by_cases hobj : c.ctype = .objectT
      · obtain ⟨m, hm⟩ := toMap_ok_of flag c hobj (hok c (by simp))
        rw [hm]
        rcases hml : mapsLoop flag cs with ms | e | _
        · refine ⟨⟨?_, ?_⟩, ?_, ?_⟩
          · rintro ⟨rs, hrs, hlen⟩
            injection hrs with hrs2
            subst hrs2
            intro x hx
            rcases List.mem_cons.mp hx with h | h
            · rw [h]; exact hobj
            · refine (ihs.1.mp ⟨ms, hml, ?_⟩) x h
              simpa using hlen
          · intro hall
            obtain ⟨rs2, hrs2, hlen2⟩ := ihs.1.mpr (fun x hx => hall x (by simp [hx]))
            rw [hml] at hrs2
            injection hrs2 with hrs3
            subst hrs3
            exact ⟨m :: ms, rfl, by simpa using hlen2⟩
          · intro e he
            cases he
          · intro h
            cases h
        · refine ⟨⟨?_, ?_⟩, ?_, ?_⟩
          · rintro ⟨rs, hrs, _⟩; cases hrs
          · intro hall
            obtain ⟨rs2, hrs2, _⟩ := ihs.1.mpr (fun x hx => hall x (by simp [hx]))
            rw [hml] at hrs2
            cases hrs2
          · intro e2 he2
            injection he2 with he3
            exact he3 ▸ ihs.2.1 e hml
          · intro h; cases h
        · exact absurd hml ihs.2.2
      · rw [toMap_err_of flag c hobj]
        refine ⟨⟨?_, ?_⟩, ?_, ?_⟩
        · rintro ⟨rs, hrs, _⟩; cases hrs
        · intro hall
          exact absurd (hall c (by simp)) hobj
        · intro e he
          injection he with he2
          rw [← he2]
          rfl
        · intro h; cases h

/-- C8 (counterexample): an array-tagged node whose only child is an
excluded `string`-tagged element: with `apply_exclusion` true, `Maps`
succeeds (returning no records) although not every child is
object-tagged, so the claimed equivalence fails. -/
theorem maps_skipped_child_counterexample :
    maps true
        (.mk .document "" 0 .arrayT .vnull false
          [.mk .element "x" 1 .stringT .vnull true
            [.mk .text "s" 2 .emptyT (.vstr "s") false []]]) = .ok []
      ∧ (GoNode.mk .document "" 0 .arrayT .vnull false
          [.mk .element "x" 1 .stringT .vnull true
            [.mk .text "s" 2 .emptyT (.vstr "s") false []]]).children.map GoNode.ctype =
        [.stringT]
      ∧ CType.stringT ≠ CType.objectT := ⟨rfl, rfl, by decide⟩

/-- C8 (amended): on a tree whose scalar bookkeeping is well-formed (as
construction guarantees — this is what rules out boolean-parse failures and
type-assertion panics deeper in the tree), `Maps` succeeds with one record
per retained child exactly when the node is `array`-tagged and every
retained child (every child when `apply_exclusion` is false, every
non-excluded child when true) is `object`-tagged; every failure is a
shape-mismatch error, and no call panics. -/
theorem maps_record_array_shape (n : GoNode) (flag : Bool) (hok : scalarsOk n = true) :
    ((∃ rs, maps flag n = .ok rs ∧ rs.length = (retainedL flag n.children).length) ↔
        n.ctype = .arrayT ∧ ∀ c ∈ retainedL flag n.children, c.ctype = .objectT)
      ∧ (∀ e, maps flag n = .err e → e.isShape = true)
      ∧ maps flag n ≠ .crash := by
  have hcs : ∀ c ∈ n.children, scalarsOk c = true := by
    obtain ⟨t, d, l, ct, id, sk, cs⟩ := n
    rw [scalarsOk, Bool.and_eq_true] at hok
    exact fun c hc => scalarsOkList_mem hok.2 c hc
  by_cases hct : n.ctype = .arrayT
  · rw [maps, if_neg (by simp [hct])]
    have hspec := mapsLoop_spec flag n.children hcs
    refine ⟨⟨fun h => ⟨hct, hspec.1.mp h⟩, fun h => hspec.1.mpr h.2⟩, hspec.2.1, hspec.2.2⟩
  · rw [maps, if_pos hct]
    refine ⟨⟨?_, ?_⟩, ?_, ?_⟩
    · rintro ⟨rs, hrs, _⟩; cases hrs
    · rintro ⟨h, _⟩; exact absurd h hct
    · intro e he
      injection he with he2
      rw [← he2]
      rfl
    · intro h; cases h

/-- Witness for C8 at a concrete array-of-objects node. -/
theorem maps_record_array_shape_witness :
    ((∃ rs, maps false
          (.mk .document "" 0 .arrayT .vnull false
            [.mk .element "" 1 .objectT .vnull false
              [.mk .element "a" 2 .stringT .vnull false
                [.mk .text "v" 3 .emptyT (.vstr "v") false []]]]) = .ok rs
        ∧ rs.length = (retainedL false
            (GoNode.mk .document "" 0 .arrayT .vnull false
              [.mk .element "" 1 .objectT .vnull false
                [.mk .element "a" 2 .stringT .vnull false
                  [.mk .text "v" 3 .emptyT (.vstr "v") false []]]]).children).length) ↔
        (GoNode.mk .document "" 0 .arrayT .vnull false
          [.mk .element "" 1 .objectT .vnull false
            [.mk .element "a" 2 .stringT .vnull false
              [.mk .text "v" 3 .emptyT (.vstr "v") false []]]]).ctype = .arrayT
          ∧ ∀ c ∈ retainedL false
              (GoNode.mk .document "" 0 .arrayT .vnull false
                [.mk .element "" 1 .objectT .vnull false
                  [.mk .element "a" 2 .stringT .vnull false
                    [.mk .text "v" 3 .emptyT (.vstr "v") false []]]]).children,
              c.ctype = .objectT) :=
  (maps_record_array_shape
    (.mk .document "" 0 .arrayT .vnull false
      [.mk .element "" 1 .objectT .vnull false
        [.mk .element "a" 2 .stringT .vnull false
          [.mk .text "v" 3 .emptyT (.vstr "v") false []]]]) false (by rfl)).1

theorem mapsLoop_filter : ∀ cs : List GoNode,
    mapsLoop true cs = mapsLoop true (cs.filter (fun x => !x.skipped)) := by
  intro cs
  induction cs with
  | nil => rfl
  | cons c cs ih =>
    by_cases hsk : c.skipped = true
    · rw [mapsLoop]
      simp only [Bool.true_and, hsk, if_true, List.filter, Bool.not_true]
      exact ih
    · have hsk2 : c.skipped = false := by
        cases h : c.skipped
        · rfl
        · exact absurd h hsk
      rw [mapsLoop]
      simp only [Bool.true_and, hsk2, Bool.false_eq_true, if_false, List.filter,
        Bool.not_false]
      rw [mapsLoop]
      simp only [Bool.true_and, hsk2, Bool.false_eq_true, if_false, ih]

theorem mapsLoop_err_of_nonobject :
    ∀ cs : List GoNode, (∀ x ∈ cs, scalarsOk x = true) →
      (∃ c ∈ cs, c.ctype ≠ .objectT) →
      ∃ e, mapsLoop false cs = .err e ∧ e.isShape = true := by
  intro cs
  induction cs with
  | nil =>
    rintro _ ⟨c, hc, _⟩
    cases hc
  | cons h cs ih =>
    rintro hok ⟨c, hc, hco⟩
    by_cases hh : h.ctype = .objectT
    · obtain ⟨m, hm⟩ := toMap_ok_of false h hh (hok h (by simp))
      have hctail : c ∈ cs := by
        rcases List.mem_cons.mp hc with he | ht
        · rw [he] at hco; exact absurd hh hco
        · exact ht
      obtain ⟨e, he, hes⟩ := ih (fun x hx => hok x (by simp [hx])) ⟨c, hctail, hco⟩
      rw [mapsLoop]
      simp only [Bool.false_and, Bool.false_eq_true, if_false]
      rw [hm, he]
      exact ⟨e, rfl, hes⟩
    · rw [mapsLoop]
      simp only [Bool.false_and, Bool.false_eq_true, if_false]
      rw [toMap_err_of false h hh]
      exact ⟨_, rfl, rfl⟩

theorem withChildren_ctype (n : GoNode) (cs : List GoNode) :
    (n.withChildren cs).ctype = n.ctype := by
  obtain ⟨t, d, l, ct, id, sk, cs0⟩ := n
  rfl

theorem withChildren_children (n : GoNode) (cs : List GoNode) :
    (n.withChildren cs).children = cs := by
  obtain ⟨t, d, l, ct, id, sk, cs0⟩ := n
  rfl

/-- C10: `Maps` consults the exclusion flag before the object-shape check,
so with `apply_exclusion` true an excluded non-object child is invisible
(the call behaves as if the excluded children were absent), while with
`apply_exclusion` false the same child makes `Maps` fail with a
shape-mismatch error. -/
theorem maps_skip_before_shape_check (n c : GoNode) (hct : n.ctype = .arrayT)
    (hmem : c ∈ n.children) (hsk : c.skipped = true) (hco : c.ctype ≠ .objectT)
    (hok : ∀ x ∈ n.children, scalarsOk x = true) :
    maps true n = maps true (n.withChildren (n.children.filter (fun x => !x.skipped)))
      ∧ ∃ e, maps false n = .err e ∧ e.isShape = true := by
  constructor
  · rw [maps, maps, withChildren_ctype, withChildren_children, if_neg (by simp [hct]),
      if_neg (by simp [hct])]
    exact mapsLoop_filter n.children
  · rw [maps, if_neg (by simp [hct])]
    exact mapsLoop_err_of_nonobject n.children hok ⟨c, hmem, hco⟩

/-- Witness for C10 at a concrete array with an excluded string child and a
retained object child. -/
theorem maps_skip_before_shape_check_witness :
    maps true
        (.mk .document "" 0 .arrayT .vnull false
          [.mk .element "x" 1 .stringT .vnull true
              [.mk .text "s" 2 .emptyT (.vstr "s") false []],
            .mk .element "" 1 .objectT .vnull false []]) =
        maps true
          ((GoNode.mk .document "" 0 .arrayT .vnull false
            [.mk .element "x" 1 .stringT .vnull true
                [.mk .text "s" 2 .emptyT (.vstr "s") false []],
              .mk .element "" 1 .objectT .vnull false []]).withChildren
            ((GoNode.mk .document "" 0 .arrayT .vnull false
              [.mk .element "x" 1 .stringT .vnull true
                  [.mk .text "s" 2 .emptyT (.vstr "s") false []],
                .mk .element "" 1 .objectT .vnull false []]).children.filter
              (fun x => !x.skipped)))
      ∧ ∃ e, maps false
          (.mk .document "" 0 .arrayT .vnull false
            [.mk .element "x" 1 .stringT .vnull true
                [.mk .text "s" 2 .emptyT (.vstr "s") false []],
              .mk .element "" 1 .objectT .vnull false []]) = .err e
          ∧ e.isShape = true :=
  maps_skip_before_shape_check
    (.mk .document "" 0 .arrayT .vnull false
      [.mk .element "x" 1 .stringT .vnull true
          [.mk .text "s" 2 .emptyT (.vstr "s") false []],
        .mk .element "" 1 .objectT .vnull false []])
    (.mk .element "x" 1 .stringT .vnull true
      [.mk .text "s" 2 .emptyT (.vstr "s") false []])
    rfl (List.mem_cons_self _ _) rfl (by decide)
    (by
      intro x hx
      rcases List.mem_cons.mp hx with h | h
      · rw [h]; rfl
      · rcases List.mem_cons.mp h with h2 | h2
        · rw [h2]; rfl
        · cases h2)

theorem setSkippedAt_ctype (n : GoNode) (p : List Nat) (b : Bool) :
    (setSkippedAt n p b).ctype = n.ctype := by
  obtain ⟨t, d, l, ct, id, sk, cs⟩ := n
  cases p <;> rfl

theorem setSkippedAt_data (n : GoNode) (p : List Nat) (b : Bool) :
    (setSkippedAt n p b).data = n.data := by
  obtain ⟨t, d, l, ct, id, sk, cs⟩ := n
  cases p <;> rfl

theorem setSkippedAt_idata (n : GoNode) (p : List Nat) (b : Bool) :
    (setSkippedAt n p b).idata = n.idata := by
  obtain ⟨t, d, l, ct, id, sk, cs⟩ := n
  cases p <;> rfl

theorem setSkippedAt_skipped_of_ne (n : GoNode) (p : List Nat) (b : Bool) (hp : p ≠ []) :
    (setSkippedAt n p b).skipped = n.skipped := by
  obtain ⟨t, d, l, ct, id, sk, cs⟩ := n
  cases p with
  | nil => exact absurd rfl hp
  | cons i p2 => rfl

theorem removeAt_cons (n : GoNode) (j : Nat) (q : List Nat) (hq : q ≠ []) :
    removeAt n (j :: q) = n.withChildren (updateNth n.children j (fun c => removeAt c q)) := by
  cases q with
  | nil => exact absurd rfl hq
  | cons x q2 => rfl

theorem removeAt_ctype (n : GoNode) (p : List Nat) : (removeAt n p).ctype = n.ctype := by
  obtain ⟨t, d, l, ct, id, sk, cs⟩ := n
  cases p with
  | nil => rfl
  | cons i p2 => cases p2 <;> rfl

theorem removeAt_data (n : GoNode) (p : List Nat) : (removeAt n p).data = n.data := by
  obtain ⟨t, d, l, ct, id, sk, cs⟩ := n
  cases p with
  | nil => rfl
  | cons i p2 => cases p2 <;> rfl

theorem removeAt_idata (n : GoNode) (p : List Nat) : (removeAt n p).idata = n.idata := by
  obtain ⟨t, d, l, ct, id, sk, cs⟩ := n
  cases p with
  | nil => rfl
  | cons i p2 => cases p2 <;> rfl

theorem removeAt_skipped (n : GoNode) (p : List Nat) : (removeAt n p).skipped = n.skipped := by
  obtain ⟨t, d, l, ct, id, sk, cs⟩ := n
  cases p with
  | nil => rfl
  | cons i p2 => cases p2 <;> rfl

theorem withSkipped_skipped (n : GoNode) (b : Bool) : (n.withSkipped b).skipped = b := by
  obtain ⟨t, d, l, ct, id, sk, cs⟩ := n
  rfl

/-- The scalar fallthrough of `InnerData`: first child's `idata` when
children exist, the node's own `idata` otherwise. -/
def headIdata (id : GoVal) : List GoNode → GoVal
  | [] => id
  | c :: _ => c.idata

theorem innerData_scalar (t : GoNodeType) (d : String) (l : Nat) (ct : CType) (id : GoVal)
    (sk : Bool) (cs : List GoNode) (h1 : ct ≠ .arrayT) (h2 : ct ≠ .objectT) :
    innerData (.mk t d l ct id sk cs) = headIdata id cs := by
  cases ct <;> first
    | exact absurd rfl h1
    | exact absurd rfl h2
    | (cases cs <;> rfl)

theorem headIdata_updateNth (id : GoVal) (cs : List GoNode) (i : Nat) (f : GoNode → GoNode)
    (hf : ∀ c, (f c).idata = c.idata) :
    headIdata id (updateNth cs i f) = headIdata id cs := by
  cases cs with
  | nil => cases i <;> rfl
  | cons c rest => cases i with
    | zero => exact hf c
    | succ j => rfl

theorem innerTextList_updateNth (cs : List GoNode) (i : Nat) (f : GoNode → GoNode)
    (h : ∀ c ∈ cs, innerText (f c) = innerText c) :
    innerTextList (updateNth cs i f) = innerTextList cs := by
  induction cs generalizing i with
  | nil => rfl
  | cons c rest ih =>
    cases i with
    | zero =>
      rw [show updateNth (c :: rest) 0 f = f c :: rest from rfl, innerTextList,
        innerTextList, h c (by simp)]
    | succ j =>
      rw [show updateNth (c :: rest) (j + 1) f = c :: updateNth rest j f from rfl,
        innerTextList, innerTextList, ih j (fun x hx => h x (by simp [hx]))]

/-- Flipping exclusion flags anywhere in the tree never changes `InnerText`. -/
theorem innerText_setSkippedAt : ∀ (n : GoNode) (p : List Nat) (b : Bool),
    innerText (setSkippedAt n p b) = innerText n := by
  intro n
  induction n using GoNode.inductOn with
  | h t d l ct id sk cs ih =>
    intro p b
    cases p with
    | nil => rfl
    | cons i p2 =>
      show innerText (.mk t d l ct id sk (updateNth cs i (fun c => setSkippedAt c p2 b))) =
        innerText (.mk t d l ct id sk cs)
      rw [innerText, innerText,
        innerTextList_updateNth cs i _ (fun c hc => ih c hc p2 b)]

/-- `JSON` of a node depends on its fields only through the nil-ness of its
`InnerData`, its `InnerData` itself on non-composite tags, its `InnerText`
under the `bool` tag, and the child loops on composite tags. -/
theorem json_congr_aux (flag : Bool) (t : GoNodeType) (d : String) (l : Nat) (ct : CType)
    (id : GoVal) (sk sk2 : Bool) (cs cs2 : List GoNode)
    (hNil : (innerData (.mk t d l ct id sk cs)).isNil =
      (innerData (.mk t d l ct id sk2 cs2)).isNil)
    (hID : ct ≠ .arrayT → ct ≠ .objectT →
      innerData (.mk t d l ct id sk cs) = innerData (.mk t d l ct id sk2 cs2))
    (hIT : ct = .boolT →
      innerText (.mk t d l ct id sk cs) = innerText (.mk t d l ct id sk2 cs2))
    (hArr : ct = .arrayT → jsonArr flag cs = jsonArr flag cs2)
    (hObj : ct = .objectT → jsonObj flag cs = jsonObj flag cs2) :
    json flag (.mk t d l ct id sk cs) = json flag (.mk t d l ct id sk2 cs2) := by
  cases ct
  case arrayT =>
    rw [json, json]
    simp only [innerData, GoVal.isNil, Bool.false_eq_true, if_false]
    rw [hArr rfl]
  case objectT =>
    rw [json, json]
    simp only [innerData, GoVal.isNil, Bool.false_eq_true, if_false]
    rw [hObj rfl]
  case boolT =>
    rw [json, json, hID (by decide) (by decide), hIT rfl]
  all_goals
    (rw [json, json, hID (by decide) (by decide)]) <;>
      (intro hx1 hx2 hx3; exact absurd hx2 (by decide))

theorem isNil_innerData_updateNth (t : GoNodeType) (d : String) (l : Nat) (ct : CType)
    (id : GoVal) (sk : Bool) (cs : List GoNode) (i : Nat) (f : GoNode → GoNode)
    (hf : ∀ c, (f c).idata = c.idata) :
    (innerData (.mk t d l ct id sk (updateNth cs i f))).isNil =
      (innerData (.mk t d l ct id sk cs)).isNil := by
  by_cases h1 : ct = .arrayT
  · subst h1; rfl
  · by_cases h2 : ct = .objectT
    · subst h2; rfl
    · rw [innerData_scalar t d l ct id sk _ h1 h2, innerData_scalar t d l ct id sk cs h1 h2,
        headIdata_updateNth id cs i f hf]

theorem jsonArr_false_updateNth (cs : List GoNode) (i : Nat) (f : GoNode → GoNode)
    (h : ∀ c ∈ cs, json false (f c) = json false c) :
    jsonArr false (updateNth cs i f) = jsonArr false cs := by
  induction cs generalizing i with
  | nil => rfl
  | cons c rest ih =>
    cases i with
    | zero =>
      show jsonArr false (f c :: rest) = jsonArr false (c :: rest)
      rw [jsonArr, jsonArr]
      simp only [Bool.false_and, Bool.false_eq_true, if_false]
      rw [h c (by simp)]
    | succ j =>
      show jsonArr false (c :: updateNth rest j f) = jsonArr false (c :: rest)
      rw [jsonArr, jsonArr]
      simp only [Bool.false_and, Bool.false_eq_true, if_false]
      rw [ih j (fun x hx => h x (by simp [hx]))]

theorem jsonObj_false_updateNth (cs : List GoNode) (i : Nat) (f : GoNode → GoNode)
    (h : ∀ c ∈ cs, json false (f c) = json false c) (hd : ∀ c, (f c).data = c.data) :
    jsonObj false (updateNth cs i f) = jsonObj false cs := by
  induction cs generalizing i with
  | nil => rfl
  | cons c rest ih =>
    cases i with
    | zero =>
      show jsonObj false (f c :: rest) = jsonObj false (c :: rest)
      rw [jsonObj, jsonObj]
      simp only [Bool.false_and, Bool.false_eq_true, if_false]
      rw [h c (by simp), hd c]
    | succ j =>
      show jsonObj false (c :: updateNth rest j f) = jsonObj false (c :: rest)
      rw [jsonObj, jsonObj]
      simp only [Bool.false_and, Bool.false_eq_true, if_false]
      rw [ih j (fun x hx => h x (by simp [hx]))]

/-- `JSON(false)` never consults exclusion flags: excluding (or
un-excluding) any node leaves the unfiltered projection unchanged. -/
theorem json_false_setSkippedAt : ∀ (n : GoNode) (p : List Nat) (b : Bool),
    json false (setSkippedAt n p b) = json false n := by
  intro n
  induction n using GoNode.inductOn with
  | h t d l ct id sk cs ih =>
    intro p b
    cases p with
    | nil =>
      exact json_congr_aux false t d l ct id b sk cs cs rfl (fun _ _ => rfl) (fun _ => rfl)
        (fun _ => rfl) (fun _ => rfl)
    | cons i p2 =>
      refine json_congr_aux false t d l ct id sk sk
        (updateNth cs i (fun c => setSkippedAt c p2 b)) cs ?_ ?_ ?_ ?_ ?_
      · exact isNil_innerData_updateNth t d l ct id sk cs i _
          (fun c => setSkippedAt_idata c p2 b)
      · intro h1 h2
        rw [innerData_scalar t d l ct id sk _ h1 h2, innerData_scalar t d l ct id sk cs h1 h2,
          headIdata_updateNth id cs i _ (fun c => setSkippedAt_idata c p2 b)]
      · intro _
        rw [innerText, innerText,
          innerTextList_updateNth cs i _ (fun c _ => innerText_setSkippedAt c p2 b)]
      · intro _
        exact jsonArr_false_updateNth cs i _ (fun c hc => ih c hc p2 b)
      · intro _
        exact jsonObj_false_updateNth cs i _ (fun c hc => ih c hc p2 b)
          (fun c => setSkippedAt_data c p2 b)

theorem jsonArr_skip_eq_remove (cs : List GoNode) (i : Nat) (hi : i < cs.length) :
    jsonArr true (updateNth cs i (fun c => c.withSkipped true)) =
      jsonArr true (removeNth cs i) := by
  induction cs generalizing i with
  | nil => cases hi
  | cons c rest ih =>
    cases i with
    | zero =>
      show jsonArr true (c.withSkipped true :: rest) = jsonArr true rest
      rw [jsonArr]
      simp only [withSkipped_skipped, Bool.and_self, if_true, Bool.true_and]
    | succ j =>
      show jsonArr true (c :: updateNth rest j _) = jsonArr true (c :: removeNth rest j)
      rw [jsonArr, jsonArr, ih j (by simpa using hi)]

theorem jsonObj_skip_eq_remove (cs : List GoNode) (i : Nat) (hi : i < cs.length) :
    jsonObj true (updateNth cs i (fun c => c.withSkipped true)) =
      jsonObj true (removeNth cs i) := by
  induction cs generalizing i with
  | nil => cases hi
  | cons c rest ih =>
    cases i with
    | zero =>
      show jsonObj true (c.withSkipped true :: rest) = jsonObj true rest
      rw [jsonObj]
      simp only [withSkipped_skipped, Bool.and_self, if_true, Bool.true_and]
    | succ j =>
      show jsonObj true (c :: updateNth rest j _) = jsonObj true (c :: removeNth rest j)
      rw [jsonObj, jsonObj, ih j (by simpa using hi)]

theorem jsonArr_updateNth_congr (flag : Bool) (cs : List GoNode) (j : Nat)
    (f g : GoNode → GoNode)
    (h : ∀ c, cs.get? j = some c →
      (f c).skipped = (g c).skipped ∧ json flag (f c) = json flag (g c)) :
    jsonArr flag (updateNth cs j f) = jsonArr flag (updateNth cs j g) := by
  induction cs generalizing j with
  | nil => rfl
  | cons c rest ih =>
    cases j with
    | zero =>
      obtain ⟨hsk, hj⟩ := h c rfl
      show jsonArr flag (f c :: rest) = jsonArr flag (g c :: rest)
      rw [jsonArr, jsonArr, hsk, hj]
    | succ j2 =>
      show jsonArr flag (c :: updateNth rest j2 f) = jsonArr flag (c :: updateNth rest j2 g)
      rw [jsonArr, jsonArr, ih j2 (fun x hx => h x hx)]

theorem jsonObj_updateNth_congr (flag : Bool) (cs : List GoNode) (j : Nat)
    (f g : GoNode → GoNode)
    (h : ∀ c, cs.get? j = some c →
      (f c).skipped = (g c).skipped ∧ (f c).data = (g c).data
        ∧ json flag (f c) = json flag (g c)) :
    jsonObj flag (updateNth cs j f) = jsonObj flag (updateNth cs j g) := by
  induction cs generalizing j with
  | nil => rfl
  | cons c rest ih =>
    cases j with
    | zero =>
      obtain ⟨hsk, hd, hj⟩ := h c rfl
      show jsonObj flag (f c :: rest) = jsonObj flag (g c :: rest)
      rw [jsonObj, jsonObj, hsk, hd, hj]
    | succ j2 =>
      show jsonObj flag (c :: updateNth rest j2 f) = jsonObj flag (c :: updateNth rest j2 g)
      rw [jsonObj, jsonObj, ih j2 (fun x hx => h x hx)]

/-- Whether a tag is one of the two composite tags. -/
def isComposite : CType → Bool
  | .arrayT => true
  | .objectT => true
  | _ => false

theorem isComposite_iff (ct : CType) :
    isComposite ct = true ↔ ct = .arrayT ∨ ct = .objectT := by
  cases ct <;> simp [isComposite]

/-- The node at path `p` and all nodes on the way to it (itself included)
are composite containers — the invariant every parsed tree satisfies along
any path to a child of a container. -/
def contPath : GoNode → List Nat → Bool
  | n, [] => isComposite n.ctype
  | n, j :: p =>
    isComposite n.ctype &&
      (match n.children.get? j with
        | some c => contPath c p
        | none => false)

/-- Excluding the `i`-th child of the composite container at composite path
`p` makes `JSON(true)` behave exactly as if that child (with its subtree)
had been removed from the tree. -/
theorem json_true_skip_eq_remove :
    ∀ (p : List Nat) (n : GoNode) (i : Nat) (m : GoNode),
      contPath n p = true → nodeAt? n p = some m → i < m.children.length →
      json true (setSkippedAt n (p ++ [i]) true) = json true (removeAt n (p ++ [i])) := by
  intro p
  induction p with
  | nil =>
    intro n i m hcp hna hi
    obtain ⟨t, d, l, ct, id, sk, cs⟩ := n
    rw [show nodeAt? (.mk t d l ct id sk cs) [] = some (.mk t d l ct id sk cs) from rfl]
      at hna
    injection hna with hm
    rw [← hm] at hi
    simp only [GoNode.children] at hi
    rw [contPath, GoNode.ctype, isComposite_iff] at hcp
    refine json_congr_aux true t d l ct id sk sk
      (updateNth cs i (fun c => setSkippedAt c [] true)) (removeNth cs i) ?_ ?_ ?_ ?_ ?_
    · rcases hcp with h | h <;> subst h <;> rfl
    · intro h1 h2
      rcases hcp with h | h
      · exact absurd h h1
      · exact absurd h h2
    · intro hb
      rcases hcp with h | h <;> rw [hb] at h <;> cases h
    · intro _
      exact jsonArr_skip_eq_remove cs i hi
    · intro _
      exact jsonObj_skip_eq_remove cs i hi
  | cons j p2 ihp =>
    intro n i m hcp hna hi
    obtain ⟨t, d, l, ct, id, sk, cs⟩ := n
    rw [contPath, Bool.and_eq_true, GoNode.ctype] at hcp
    obtain ⟨hcomp, htail⟩ := hcp
    simp only [GoNode.children] at htail
    rw [show nodeAt? (.mk t d l ct id sk cs) (j :: p2) =
        (match cs.get? j with
          | some c => nodeAt? c p2
          | none => none) from rfl] at hna
    rcases hgc : cs.get? j with _ | c
    · rw [hgc] at htail
      cases htail
    · rw [hgc] at htail
      rw [hgc] at hna
      rw [isComposite_iff] at hcomp
      have hmain := ihp c i m htail hna hi
      show json true (.mk t d l ct id sk
          (updateNth cs j (fun c2 => setSkippedAt c2 (p2 ++ [i]) true))) =
        json true (removeAt (.mk t d l ct id sk cs) (j :: (p2 ++ [i])))
      rw [removeAt_cons _ _ _ (by simp), GoNode.children,
        show (GoNode.mk t d l ct id sk cs).withChildren
            (updateNth cs j (fun c2 => removeAt c2 (p2 ++ [i]))) =
          .mk t d l ct id sk (updateNth cs j (fun c2 => removeAt c2 (p2 ++ [i]))) from rfl]
      refine json_congr_aux true t d l ct id sk sk _ _ ?_ ?_ ?_ ?_ ?_
      · rcases hcomp with h | h <;> subst h <;> rfl
      · intro h1 h2
        rcases hcomp with h | h
        · exact absurd h h1
        · exact absurd h h2
      · intro hb
        rcases hcomp with h | h <;> rw [hb] at h <;> cases h
      · intro _
        refine jsonArr_updateNth_congr true cs j _ _ ?_
        intro c2 hc2
        rw [hgc] at hc2
        injection hc2 with hc3
        subst hc3
        refine ⟨?_, ?_⟩
        · rw [setSkippedAt_skipped_of_ne _ _ _ (by simp), removeAt_skipped]
        · exact ihp c i m htail hna hi
      · intro _
        refine jsonObj_updateNth_congr true cs j _ _ ?_
        intro c2 hc2
        rw [hgc] at hc2
        injection hc2 with hc3
        subst hc3
        refine ⟨?_, ?_, ?_⟩
        · rw [setSkippedAt_skipped_of_ne _ _ _ (by simp), removeAt_skipped]
        · rw [setSkippedAt_data, removeAt_data]
        · exact ihp c i m htail hna hi

theorem shapeList_updateNth (cs : List GoNode) (i : Nat) (f : GoNode → GoNode)
    (h : ∀ c ∈ cs, shape (f c) = shape c) :
    shapeList (updateNth cs i f) = shapeList cs := by
  induction cs generalizing i with
  | nil => rfl
  | cons c rest ih =>
    cases i with
    | zero =>
      show shapeList (f c :: rest) = shapeList (c :: rest)
      rw [shapeList, shapeList, h c (by simp)]
    | succ j =>
      show shapeList (c :: updateNth rest j f) = shapeList (c :: rest)
      rw [shapeList, shapeList, ih j (fun x hx => h x (by simp [hx]))]

/-- Exclusion never changes the tree's topology or payloads: the
flag-erased tree is untouched. -/
theorem shape_setSkippedAt : ∀ (n : GoNode) (p : List Nat) (b : Bool),
    shape (setSkippedAt n p b) = shape n := by
  intro n
  induction n using GoNode.inductOn with
  | h t d l ct id sk cs ih =>
    intro p b
    cases p with
    | nil => rfl
    | cons i p2 =>
      show shape (.mk t d l ct id sk (updateNth cs i (fun c => setSkippedAt c p2 b))) =
        shape (.mk t d l ct id sk cs)
      rw [shape, shape, shapeList_updateNth cs i _ (fun c hc => ih c hc p2 b)]

/-- C4 (counterexample): in the tree parsed from `[1]`, excluding the text
leaf at path [0,0] (a node of the built tree, but not a child of a
composite container) does not omit it from `to_value(true)` — the output
still carries the value 1, unchanged, whereas genuinely removing the node
would give `[null]`. -/
theorem json_exclude_counterexample :
    json true (parseDoc (.varr [.vf64 1])) = .ok (.varr [.vf64 1])
      ∧ json true (setSkippedAt (parseDoc (.varr [.vf64 1])) [0, 0] true) =
        .ok (.varr [.vf64 1])
      ∧ json true (removeAt (parseDoc (.varr [.vf64 1])) [0, 0]) = .ok (.varr [.vnull])
      ∧ GoVal.varr [.vf64 1] ≠ .varr [.vnull] := by
  have hp : parseDoc (.varr [.vf64 1]) =
      .mk .document "" 0 .arrayT .vnull false
        [.mk .element "" 1 .float64T .vnull false
          [.mk .text "1" 2 .emptyT (.vf64 1) false []]] := by
    simp +decide [parseDoc, parseVal, parseArr, renderF]
  rw [hp]
  refine ⟨rfl, rfl, rfl, by simp⟩

/-- C4 (amended): for a node that is a child of an `array`- or
`object`-tagged container reached through composite containers (the shape
every parsed tree has): excluding it leaves `to_value(false)` unchanged
(the node is still included), makes `to_value(true)` behave exactly as if
the node and its subtree had been removed (and nothing else), and never
changes the tree's topology. -/
theorem json_exclusion_effect (tr : GoNode) (p : List Nat) (i : Nat) (m : GoNode)
    (hcp : contPath tr p = true) (hna : nodeAt? tr p = some m)
    (hi : i < m.children.length) :
    (∀ b, json false (setSkippedAt tr (p ++ [i]) b) = json false tr)
      ∧ json true (setSkippedAt tr (p ++ [i]) true) = json true (removeAt tr (p ++ [i]))
      ∧ ∀ (q : List Nat) (b : Bool), shape (setSkippedAt tr q b) = shape tr :=
  ⟨fun b => json_false_setSkippedAt tr (p ++ [i]) b,
    json_true_skip_eq_remove p tr i m hcp hna hi,
    fun q b => shape_setSkippedAt tr q b⟩

/-- Witness for C4: excluding the first record of a two-record array. -/
theorem json_exclusion_effect_witness :
    json true
        (setSkippedAt
          (.mk .document "" 0 .arrayT .vnull false
            [.mk .element "" 1 .objectT .vnull false [],
              .mk .element "" 1 .objectT .vnull false []])
          ([] ++ [0]) true) =
      json true
        (removeAt
          (.mk .document "" 0 .arrayT .vnull false
            [.mk .element "" 1 .objectT .vnull false [],
              .mk .element "" 1 .objectT .vnull false []])
          ([] ++ [0])) :=
  (json_exclusion_effect
    (.mk .document "" 0 .arrayT .vnull false
      [.mk .element "" 1 .objectT .vnull false [],
        .mk .element "" 1 .objectT .vnull false []])
    [] 0
    (.mk .document "" 0 .arrayT .vnull false
      [.mk .element "" 1 .objectT .vnull false [],
        .mk .element "" 1 .objectT .vnull false []])
    rfl rfl (by decide)).2.1

end JsonQuery
